import Mathlib

/-!
Verification of the firmware codec in the behringerctl repository.

Byte buffers are modelled as `List Nat` whose elements are below 256; the
JavaScript bitwise operators `&`, `|`, `^`, `<<`, `>>` are mirrored by the
Nat operators `&&&`, `|||`, `^^^`, `<<<`, `>>>` (all values involved stay
far below 2^31, so JavaScript 32-bit semantics and Nat semantics agree).
Out-of-range JavaScript array reads yield `undefined`, which the bitwise
operators coerce to 0; such reads are modelled with `List.getD _ _ 0`.
-/

/-! ## Arithmetic toolkit for the bitwise operators -/

/-- Low-bit append: the JavaScript idiom `(b << 1) | e` with `e` a single
bit is plain arithmetic `2*b + e`. -/
theorem orLow (b e : Nat) (he : e < 2) : (b <<< 1) ||| e = 2 * b + e := by
  have h := Nat.mul_add_lt_is_or (i := 1) (by simpa using he) b
  have hb : b <<< 1 = 2 * b := by
    rw [Nat.shiftLeft_eq]; ring
  simp only [pow_one] at h
  rw [hb, ← h]

/-- Masking with 0x80 extracts bit 7, arithmetically. -/
theorem and128 (x : Nat) : x &&& 128 = 128 * (x / 128 % 2) := by
  apply Nat.eq_of_testBit_eq
  intro i
  rw [Nat.testBit_and]
  have hcases : x / 128 % 2 = 0 ∨ x / 128 % 2 = 1 := by omega
  by_cases hi : i = 7
  · subst hi
    have h128 : Nat.testBit 128 7 = true := by decide
    rw [h128, Bool.and_true]
    rcases hcases with h | h <;> rw [h]
    · rw [Nat.mul_zero, Nat.zero_testBit, Nat.testBit_to_div_mod]
      simp [show (2:Nat)^7 = 128 from by norm_num, h]
    · rw [Nat.mul_one, h128, Nat.testBit_to_div_mod]
      simp [show (2:Nat)^7 = 128 from by norm_num, h]
  · have h128 : Nat.testBit 128 i = false := by
      have h2 : (128 : Nat) = 2 ^ 7 := by norm_num
      rw [h2, Nat.testBit_two_pow]
      simpa using fun h => hi h.symm
    rw [h128, Bool.and_false]
    rcases hcases with h | h <;> rw [h]
    · simp
    · rw [Nat.mul_one, h128]

/-- Masking with 0x7F is reduction mod 128. -/
theorem and127 (x : Nat) : x &&& 127 = x % 128 := by
  have h : (127 : Nat) = 2 ^ 7 - 1 := by norm_num
  rw [h, Nat.and_pow_two_sub_one_eq_mod]

/-- Right shift by 7 is division by 128. -/
theorem shr7 (x : Nat) : x >>> 7 = x / 128 := by
  rw [Nat.shiftRight_eq_div_pow]

/-- Right shift by 8 is division by 256. -/
theorem shr8 (x : Nat) : x >>> 8 = x / 256 := by
  rw [Nat.shiftRight_eq_div_pow]

/-- Masking with 0xFF is reduction mod 256. -/
theorem and255 (x : Nat) : x &&& 255 = x % 256 := by
  have h : (255 : Nat) = 2 ^ 8 - 1 := by norm_num
  rw [h, Nat.and_pow_two_sub_one_eq_mod]

/-- Recombining a parsed big-endian 16-bit value: `(hi << 8) | lo`. -/
theorem hiLoRecombine (m : Nat) :
    ((m >>> 8) <<< 8) ||| (m &&& 255) = m := by
  rw [shr8, and255, Nat.shiftLeft_eq]
  have h := Nat.mul_add_lt_is_or (i := 8) (b := m % 256) (by omega) (m / 256)
  have : m / 256 * 2 ^ 8 = 2 ^ 8 * (m / 256) := by ring
  rw [this, ← h]
  omega

/-- Splitting a byte at bit 7: or-ing the low part with `128 * (top bit)`
recovers the byte. -/
theorem byteRecon (d x : Nat) (hd : d < 256) (hx : x = 128 * (d / 128)) :
    (d &&& 127) ||| x = d := by
  rw [and127]
  have : d / 128 = 0 ∨ d / 128 = 1 := by omega
  rcases this with h | h
  · rw [hx, h]
    simp only [Nat.mul_zero, Nat.or_zero]
    omega
  · rw [hx, h, Nat.mul_one, Nat.or_comm]
    have h2 := Nat.mul_add_lt_is_or (i := 7) (b := d % 128) (by omega) 1
    simp only [Nat.mul_one] at h2
    rw [show (2:Nat)^7 = 128 from by norm_num] at h2
    rw [← h2]
    omega

/-- XOR of two bytes is a byte. -/
theorem xor_lt_256 (a b : Nat) (ha : a < 256) (hb : b < 256) : a ^^^ b < 256 := by
  have : (256 : Nat) = 2 ^ 8 := by norm_num
  rw [this] at *
  exact Nat.xor_lt_two_pow ha hb

/-! ## 7/8 coder (src/algo/sevenEightCoder.js)

`encode` walks the input in groups of seven bytes, emitting the seven low
parts followed by one byte holding the seven top bits; a short final group
is read past the end of the input, which JavaScript coerces to zero bytes.
`decode` walks the input in groups of eight, restoring the top bits; it
performs no length check whatsoever. -/

/-- Pad a group to seven bytes with zeroes (JavaScript reads `undefined`
past the end of the input, which the bitwise operators treat as 0). -/
def pad7 (g : List Nat) : List Nat := g ++ List.replicate (7 - g.length) 0

/-- One seven-byte group of `SevenEightCoder.encode`: the seven bytes with
bit 7 cleared, then the accumulator holding the seven top bits. -/
def encGroup (g : List Nat) : List Nat :=
  (g.map (fun d => d &&& 0x7F)) ++ [g.foldl (fun buffer d => (buffer <<< 1) ||| (d >>> 7)) 0]

/-- `SevenEightCoder.encode`: process the input seven bytes at a time; the
final short group is read past the end of the input (as zero bytes), which
`pad7` models. -/
def encode78 : List Nat → List Nat
  | [] => []
  | d0 :: d1 :: d2 :: d3 :: d4 :: d5 :: d6 :: rest =>
      encGroup [d0, d1, d2, d3, d4, d5, d6] ++ encode78 rest
  | l => encGroup (pad7 l)

/-- One eight-byte group of `SevenEightCoder.decode`: restore bit 7 of each
of the seven data bytes from the trailing high-bits byte. -/
def decGroup (g : List Nat) : List Nat :=
  (List.range 7).map (fun j => (g.getD j 0) ||| (((g.getD 7 0) <<< j <<< 1) &&& 0x80))

/-- `SevenEightCoder.decode`: process the input eight bytes at a time; no
length check is performed, a short final group reads past the end (as 0),
which `decGroup`'s defaulted reads model. -/
def decode78 : List Nat → List Nat
  | [] => []
  | x0 :: x1 :: x2 :: x3 :: x4 :: x5 :: x6 :: x7 :: rest =>
      decGroup [x0, x1, x2, x3, x4, x5, x6, x7] ++ decode78 rest
  | l => decGroup l

/-! ## Repeating-key XOR cipher (src/algo/xor.js)

The JavaScript function cycles a key over the data: `data[i] ^= key[i % key.length]`. -/

/-- The XOR loop from index `i` onwards. -/
def xorBytesFrom (key : List Nat) (i : Nat) : List Nat → List Nat
  | [] => []
  | d :: rest => (d ^^^ key.getD (i % key.length) 0) :: xorBytesFrom key (i + 1) rest

/-- `xor(key, data)`: byte-wise XOR with the key cycled. -/
def xorBytes (key data : List Nat) : List Nat := xorBytesFrom key 0 data

/-! ## Device keys (src/device/deq2496v2.js, src/midiData.js) -/

/-- MIDI-block XOR key of the DEQ2496v2 profile, the ASCII bytes of `TZ'04`. -/
def KEY_FW_BLOCK : List Nat := [84, 90, 39, 48, 52]

/-- MIDI-block XOR key of the DEQ2496v1 profile, the ASCII bytes of `TZ'02`. -/
def KEY_FW_BLOCK_1 : List Nat := [84, 90, 39, 48, 50]

/-- Application XOR key of the DEQ2496v2 profile: the 55 ASCII bytes of
`- ORIGINAL BEHRINGER CODE - COPYRIGHT 2004 - BGER/TZ - ` followed by one
NUL byte (56 bytes in total). -/
def KEY_FW_APP : List Nat :=
  [45, 32, 79, 82, 73, 71, 73, 78, 65, 76, 32,
   66, 69, 72, 82, 73, 78, 71, 69, 82, 32,
   67, 79, 68, 69, 32, 45, 32,
   67, 79, 80, 89, 82, 73, 71, 72, 84, 32,
   50, 48, 48, 52, 32, 45, 32,
   66, 71, 69, 82, 47, 84, 90, 32, 45, 32, 0]

/-! ## Block checksum (src/algo/checksumTZ.js) -/

/-- One bit-round of the checksum: conditionally XOR the polynomial byte
0x19 into the state, shift the data byte right, and rotate the state right
within eight bits.  The pair is `(b, crc)`. -/
def crcBitRound (p : Nat × Nat) : Nat × Nat :=
  let crc1 := if (p.1 ^^^ p.2) &&& 1 == 0 then p.2 ^^^ 0x19 else p.2
  (p.1 >>> 1, ((crc1 &&& 1) <<< 7) ||| (crc1 >>> 1))

/-- Eight bit-rounds, consuming one data byte. -/
def crcByte (crc b : Nat) : Nat := (crcBitRound^[8] (b, crc)).2

/-- `checksumTZ(data)`: fold the bit-rounds over the data, then XOR 0xBF. -/
def checksumTZ (data : List Nat) : Nat := (data.foldl crcByte 0) ^^^ 0xBF

/-! ## Block-address cipher (src/algo/midiFirmwareCoder.js) -/

/-- The branch-free key update of `midiFirmwareCoder`: XOR a pattern built
from the low bit of the key (equivalent to `if (key & 1) key ^= 0x8005`),
then shift right. -/
def mfcStep (key : Nat) : Nat :=
  (key ^^^ (((key &&& 1) <<< 15) ||| ((key &&& 1) <<< 2) ||| (key &&& 1))) >>> 1

/-- The cipher loop: each 16-bit word position advances the key, then XORs
the low key byte into the even byte and the high key byte into the odd
byte.  A trailing odd byte only receives the low key byte (the JavaScript
out-of-bounds store of the high byte is discarded). -/
def mfcGo (key : Nat) : List Nat → List Nat
  | [] => []
  | [a] => [a ^^^ (mfcStep key &&& 0xFF)]
  | a :: b :: rest =>
      (a ^^^ (mfcStep key &&& 0xFF)) :: (b ^^^ (mfcStep key >>> 8)) :: mfcGo (mfcStep key) rest

/-- `midiFirmwareCoder(baseBlockNum, dataIn)`: key starts at the base block
number, or at the magic 0x545A when that is zero. -/
def midiFirmwareCoder (baseBlockNum : Nat) (dataIn : List Nat) : List Nat :=
  mfcGo (if baseBlockNum == 0 then 0x545A else baseBlockNum) dataIn

/-! ## Basic properties of the primitives -/

theorem xorBytesFrom_invol (key : List Nat) (i : Nat) (data : List Nat) :
    xorBytesFrom key i (xorBytesFrom key i data) = data := by
  induction data generalizing i with
  | nil => rfl
  | cons d rest ih => simp [xorBytesFrom, Nat.xor_cancel_right, ih]

/-- The repeating-key XOR cipher is an involution. -/
theorem xorBytes_invol (key data : List Nat) : xorBytes key (xorBytes key data) = data :=
  xorBytesFrom_invol key 0 data

theorem xorBytesFrom_length (key : List Nat) (i : Nat) (data : List Nat) :
    (xorBytesFrom key i data).length = data.length := by
  induction data generalizing i with
  | nil => rfl
  | cons d rest ih => simp [xorBytesFrom, ih]

theorem xorBytes_length (key data : List Nat) : (xorBytes key data).length = data.length :=
  xorBytesFrom_length key 0 data

theorem xorBytesFrom_lt_256 (key : List Nat) (hk : ∀ x ∈ key, x < 256) (i : Nat)
    (data : List Nat) (hd : ∀ x ∈ data, x < 256) :
    ∀ x ∈ xorBytesFrom key i data, x < 256 := by
  induction data generalizing i with
  | nil => simp [xorBytesFrom]
  | cons d rest ih =>
    intro x hx
    simp only [xorBytesFrom, List.mem_cons] at hx
    rcases hx with h | h
    · subst h
      apply xor_lt_256 _ _ (hd d (by simp))
      by_cases hmem : i % key.length < key.length
      · rw [List.getD_eq_getElem _ _ hmem]
        exact hk _ (List.getElem_mem hmem)
      · rw [List.getD_eq_default _ _ (by omega)]
        omega
    · exact ih (i + 1) (fun y hy => hd y (by simp [hy])) x h

theorem xorBytes_lt_256 (key : List Nat) (hk : ∀ x ∈ key, x < 256)
    (data : List Nat) (hd : ∀ x ∈ data, x < 256) :
    ∀ x ∈ xorBytes key data, x < 256 :=
  xorBytesFrom_lt_256 key hk 0 data hd

theorem mfcGo_invol (key : Nat) (l : List Nat) : mfcGo key (mfcGo key l) = l := by
  match l with
  | [] => rfl
  | [a] => simp [mfcGo, Nat.xor_cancel_right]
  | a :: b :: rest =>
    simp only [mfcGo, Nat.xor_cancel_right]
    rw [mfcGo_invol (mfcStep key) rest]

theorem mfcGo_length (key : Nat) (l : List Nat) : (mfcGo key l).length = l.length := by
  match l with
  | [] => rfl
  | [a] => rfl
  | a :: b :: rest => simp only [mfcGo, List.length_cons]; rw [mfcGo_length (mfcStep key) rest]

theorem midiFirmwareCoder_length (n : Nat) (l : List Nat) :
    (midiFirmwareCoder n l).length = l.length := mfcGo_length _ l

/-- The key state stays below 2^16, so the high key byte stays below 128. -/
theorem mfcStep_lt (key : Nat) (h : key < 65536) : mfcStep key < 32768 := by
  unfold mfcStep
  have hb : (((key &&& 1) <<< 15) ||| ((key &&& 1) <<< 2) ||| (key &&& 1)) < 65536 := by
    have hk1 : key &&& 1 ≤ 1 := Nat.and_le_right
    have e1 : (key &&& 1) <<< 15 < 2 ^ 16 := by
      rw [Nat.shiftLeft_eq]
      have : (key &&& 1) * 2 ^ 15 ≤ 1 * 2 ^ 15 := Nat.mul_le_mul_right _ hk1
      omega
    have e2 : (key &&& 1) <<< 2 < 2 ^ 16 := by
      rw [Nat.shiftLeft_eq]
      have : (key &&& 1) * 2 ^ 2 ≤ 1 * 2 ^ 2 := Nat.mul_le_mul_right _ hk1
      omega
    have e3 : key &&& 1 < 2 ^ 16 := by omega
    have o1 := Nat.or_lt_two_pow (n := 16) e1 e2
    have := Nat.or_lt_two_pow (n := 16) o1 e3
    simpa using this
  have h1 : key ^^^ (((key &&& 1) <<< 15) ||| ((key &&& 1) <<< 2) ||| (key &&& 1)) < 65536 := by
    have := Nat.xor_lt_two_pow (n := 16) (by simpa using h) (by simpa using hb)
    simpa using this
  rw [Nat.shiftRight_eq_div_pow]
  omega

theorem mfcGo_lt_256 (key : Nat) (hkey : key < 65536) (l : List Nat)
    (hl : ∀ x ∈ l, x < 256) : ∀ x ∈ mfcGo key l, x < 256 := by
  match l with
  | [] => simpa [mfcGo] using hl
  | [a] =>
    intro x hx
    simp only [mfcGo, List.mem_singleton] at hx
    subst hx
    apply xor_lt_256 _ _ (hl a (by simp))
    have := Nat.and_le_right (n := mfcStep key) (m := 0xFF)
    omega
  | a :: b :: rest =>
    intro x hx
    have hstep := mfcStep_lt key hkey
    simp only [mfcGo, List.mem_cons] at hx
    rcases hx with h | h | h
    · subst h
      apply xor_lt_256 _ _ (hl a (by simp))
      have := Nat.and_le_right (n := mfcStep key) (m := 0xFF)
      omega
    · subst h
      apply xor_lt_256 _ _ (hl b (by simp))
      rw [shr8]
      omega
    · exact mfcGo_lt_256 (mfcStep key) (by omega) rest
        (fun y hy => hl y (by simp [hy])) x h

theorem midiFirmwareCoder_lt_256 (n : Nat) (hn : n < 65536) (l : List Nat)
    (hl : ∀ x ∈ l, x < 256) : ∀ x ∈ midiFirmwareCoder n l, x < 256 := by
  unfold midiFirmwareCoder
  split
  · exact mfcGo_lt_256 0x545A (by omega) l hl
  · exact mfcGo_lt_256 n hn l hl

/-! ## 7/8 coder properties -/

theorem encGroup_length (g : List Nat) : (encGroup g).length = g.length + 1 := by
  simp [encGroup]

theorem pad7_lt_256 (l : List Nat) (hb : ∀ x ∈ l, x < 256) : ∀ y ∈ pad7 l, y < 256 := by
  intro y hy
  simp only [pad7, List.mem_append, List.mem_replicate] at hy
  rcases hy with h | h
  · exact hb y h
  · omega

theorem pad7_length_le (l : List Nat) (h : l.length ≤ 7) : (pad7 l).length = 7 := by
  simp only [pad7, List.length_append, List.length_replicate]
  omega

theorem encode78_length (l : List Nat) : (encode78 l).length = 8 * ((l.length + 6) / 7) := by
  match l with
  | [] => rfl
  | [a] =>
    rw [show encode78 [a] = encGroup (pad7 [a]) from rfl, encGroup_length,
      pad7_length_le _ (by simp)]
    simp
  | [a, b] =>
    rw [show encode78 [a, b] = encGroup (pad7 [a, b]) from rfl, encGroup_length,
      pad7_length_le _ (by simp)]
    simp
  | [a, b, c] =>
    rw [show encode78 [a, b, c] = encGroup (pad7 [a, b, c]) from rfl, encGroup_length,
      pad7_length_le _ (by simp)]
    simp
  | [a, b, c, d] =>
    rw [show encode78 [a, b, c, d] = encGroup (pad7 [a, b, c, d]) from rfl, encGroup_length,
      pad7_length_le _ (by simp)]
    simp
  | [a, b, c, d, e] =>
    rw [show encode78 [a, b, c, d, e] = encGroup (pad7 [a, b, c, d, e]) from rfl,
      encGroup_length, pad7_length_le _ (by simp)]
    simp
  | [a, b, c, d, e, f] =>
    rw [show encode78 [a, b, c, d, e, f] = encGroup (pad7 [a, b, c, d, e, f]) from rfl,
      encGroup_length, pad7_length_le _ (by simp)]
    simp
  | d0 :: d1 :: d2 :: d3 :: d4 :: d5 :: d6 :: rest =>
    simp only [encode78, List.length_append, encGroup_length, List.length_cons,
      List.length_nil]
    rw [encode78_length rest]
    omega

/-- The accumulated high-bits byte of one seven-byte group, written
arithmetically. -/
theorem hbits (d0 d1 d2 d3 d4 d5 d6 : Nat)
    (h0 : d0 < 256) (h1 : d1 < 256) (h2 : d2 < 256) (h3 : d3 < 256)
    (h4 : d4 < 256) (h5 : d5 < 256) (h6 : d6 < 256) :
    [d0, d1, d2, d3, d4, d5, d6].foldl (fun buffer d => (buffer <<< 1) ||| (d >>> 7)) 0 =
      64 * (d0 / 128) + 32 * (d1 / 128) + 16 * (d2 / 128) + 8 * (d3 / 128) +
        4 * (d4 / 128) + 2 * (d5 / 128) + d6 / 128 := by
  simp only [List.foldl, shr7]
  rw [orLow _ (d6 / 128) (by omega), orLow _ (d5 / 128) (by omega),
    orLow _ (d4 / 128) (by omega), orLow _ (d3 / 128) (by omega),
    orLow _ (d2 / 128) (by omega), orLow _ (d1 / 128) (by omega),
    orLow _ (d0 / 128) (by omega)]
  ring

/-- Decoding one encoded seven-byte group restores the group. -/
theorem decGroup_encGroup (d0 d1 d2 d3 d4 d5 d6 : Nat)
    (h0 : d0 < 256) (h1 : d1 < 256) (h2 : d2 < 256) (h3 : d3 < 256)
    (h4 : d4 < 256) (h5 : d5 < 256) (h6 : d6 < 256) :
    decGroup (encGroup [d0, d1, d2, d3, d4, d5, d6]) = [d0, d1, d2, d3, d4, d5, d6] := by
  have hH := hbits d0 d1 d2 d3 d4 d5 d6 h0 h1 h2 h3 h4 h5 h6
  simp only [encGroup, List.map_cons, List.map_nil]
  rw [hH]
  have hr : List.range 7 = [0, 1, 2, 3, 4, 5, 6] := rfl
  simp only [decGroup, hr, List.map_cons, List.map_nil, List.cons_append, List.nil_append,
    List.getD_cons_zero, List.getD_cons_succ]
  have e0 : d0 / 128 < 2 := by omega
  have e1 : d1 / 128 < 2 := by omega
  have e2 : d2 / 128 < 2 := by omega
  have e3 : d3 / 128 < 2 := by omega
  have e4 : d4 / 128 < 2 := by omega
  have e5 : d5 / 128 < 2 := by omega
  have e6 : d6 / 128 < 2 := by omega
  refine List.cons_eq_cons.mpr ⟨?_, List.cons_eq_cons.mpr ⟨?_, List.cons_eq_cons.mpr ⟨?_,
    List.cons_eq_cons.mpr ⟨?_, List.cons_eq_cons.mpr ⟨?_, List.cons_eq_cons.mpr ⟨?_,
    List.cons_eq_cons.mpr ⟨?_, rfl⟩⟩⟩⟩⟩⟩⟩ <;>
    [skip; skip; skip; skip; skip; skip; skip] <;>
  · apply byteRecon _ _ (by omega)
    simp only [Nat.shiftLeft_eq, and128]
    ring_nf
    omega

/-- The high-bits accumulator over a group of at most seven bytes stays
below 128. -/
theorem encFold_lt (g : List Nat) (b : Nat) (hy : ∀ y ∈ g, y < 256) :
    g.foldl (fun buffer d => (buffer <<< 1) ||| (d >>> 7)) b < (b + 1) * 2 ^ g.length := by
  induction g generalizing b with
  | nil => simp
  | cons y ys ih =>
    simp only [List.foldl_cons]
    have hstep : (b <<< 1) ||| (y >>> 7) = 2 * b + y / 128 := by
      rw [shr7]
      exact orLow b (y / 128) (by have := hy y (by simp); omega)
    rw [hstep]
    have hrec := ih (2 * b + y / 128) (fun z hz => hy z (by simp [hz]))
    have hy2 : y / 128 < 2 := by have := hy y (by simp); omega
    have hc : 2 * b + y / 128 + 1 ≤ 2 * (b + 1) := by omega
    calc List.foldl _ (2 * b + y / 128) ys < (2 * b + y / 128 + 1) * 2 ^ ys.length := hrec
      _ ≤ (2 * (b + 1)) * 2 ^ ys.length := Nat.mul_le_mul_right _ hc
      _ = (b + 1) * 2 ^ (ys.length + 1) := by ring

/-- Every byte of an encoded group has its high bit clear. -/
theorem encGroup_lt_128 (g : List Nat) (hg : ∀ y ∈ g, y < 256) (hlen : g.length ≤ 7) :
    ∀ x ∈ encGroup g, x < 128 := by
  intro x hx
  simp only [encGroup, List.mem_append, List.mem_map, List.mem_singleton] at hx
  rcases hx with ⟨d1, _, hd1⟩ | hx
  · have := Nat.and_le_right (n := d1) (m := 0x7F)
    omega
  · subst hx
    have := encFold_lt g 0 hg
    have h2 : (2:Nat) ^ g.length ≤ 2 ^ 7 := Nat.pow_le_pow_right (by omega) hlen
    simp only [Nat.zero_add, Nat.one_mul] at this
    omega

/-- Every byte produced by `encode78` has its high bit clear, provided the
input consists of bytes. -/
theorem encode78_lt_128 (l : List Nat) (hb : ∀ x ∈ l, x < 256) :
    ∀ x ∈ encode78 l, x < 128 := by
  match l with
  | [] => simp [encode78]
  | [a] => exact encGroup_lt_128 _ (pad7_lt_256 _ hb) (by rw [pad7_length_le] <;> simp)
  | [a, b] => exact encGroup_lt_128 _ (pad7_lt_256 _ hb) (by rw [pad7_length_le] <;> simp)
  | [a, b, c] => exact encGroup_lt_128 _ (pad7_lt_256 _ hb) (by rw [pad7_length_le] <;> simp)
  | [a, b, c, d] => exact encGroup_lt_128 _ (pad7_lt_256 _ hb) (by rw [pad7_length_le] <;> simp)
  | [a, b, c, d, e] => exact encGroup_lt_128 _ (pad7_lt_256 _ hb) (by rw [pad7_length_le] <;> simp)
  | [a, b, c, d, e, f] =>
    exact encGroup_lt_128 _ (pad7_lt_256 _ hb) (by rw [pad7_length_le] <;> simp)
  | d0 :: d1 :: d2 :: d3 :: d4 :: d5 :: d6 :: rest =>
    intro x hx
    simp only [encode78, List.mem_append] at hx
    rcases hx with h | h
    · refine encGroup_lt_128 [d0, d1, d2, d3, d4, d5, d6] ?_ (by simp) x h
      intro y hy
      simp only [List.mem_cons, List.not_mem_nil, or_false] at hy
      rcases hy with h1|h1|h1|h1|h1|h1|h1 <;> subst h1 <;> exact hb _ (by simp)
    · exact encode78_lt_128 rest (fun y hy => hb y (by simp [hy])) x h

/-- Round-trip of the 7/8 coder on inputs whose length is a multiple of
seven. -/
theorem decode78_encode78 (l : List Nat) (h7 : l.length % 7 = 0)
    (hb : ∀ x ∈ l, x < 256) : decode78 (encode78 l) = l := by
  match l with
  | [] => rfl
  | [_] => simp at h7
  | [_, _] => simp at h7
  | [_, _, _] => simp at h7
  | [_, _, _, _] => simp at h7
  | [_, _, _, _, _] => simp at h7
  | [_, _, _, _, _, _] => simp at h7
  | d0 :: d1 :: d2 :: d3 :: d4 :: d5 :: d6 :: rest =>
    have hrest7 : rest.length % 7 = 0 := by
      simp only [List.length_cons] at h7
      omega
    have hbr : ∀ x ∈ rest, x < 256 := fun x hx => hb x (by simp [hx])
    have ih := decode78_encode78 rest hrest7 hbr
    have hm : ∀ j ∈ [d0, d1, d2, d3, d4, d5, d6], j < 256 := by
      intro j hj
      simp only [List.mem_cons, List.not_mem_nil, or_false] at hj
      rcases hj with h|h|h|h|h|h|h <;> subst h <;> exact hb _ (by simp)
    have hgrp := decGroup_encGroup d0 d1 d2 d3 d4 d5 d6
      (hm d0 (by simp)) (hm d1 (by simp)) (hm d2 (by simp)) (hm d3 (by simp))
      (hm d4 (by simp)) (hm d5 (by simp)) (hm d6 (by simp))
    show decode78 (encGroup [d0, d1, d2, d3, d4, d5, d6] ++ encode78 rest) =
      d0 :: d1 :: d2 :: d3 :: d4 :: d5 :: d6 :: rest
    have hexp : encGroup [d0, d1, d2, d3, d4, d5, d6] =
        [d0 &&& 127, d1 &&& 127, d2 &&& 127, d3 &&& 127, d4 &&& 127, d5 &&& 127, d6 &&& 127,
          [d0, d1, d2, d3, d4, d5, d6].foldl
            (fun buffer d => (buffer <<< 1) ||| (d >>> 7)) 0] := by
      simp [encGroup]
    rw [hexp]
    show decGroup [d0 &&& 127, d1 &&& 127, d2 &&& 127, d3 &&& 127, d4 &&& 127, d5 &&& 127,
        d6 &&& 127,
        [d0, d1, d2, d3, d4, d5, d6].foldl (fun buffer d => (buffer <<< 1) ||| (d >>> 7)) 0] ++
        decode78 (encode78 rest) = d0 :: d1 :: d2 :: d3 :: d4 :: d5 :: d6 :: rest
    rw [← hexp, hgrp, ih]
    rfl

theorem decGroup_length (g : List Nat) : (decGroup g).length = 7 := by
  simp [decGroup]

/-- The decoder yields seven bytes for every (complete or partial) group of
eight input bytes. -/
theorem decode78_length (l : List Nat) : (decode78 l).length = 7 * ((l.length + 7) / 8) := by
  match l with
  | [] => rfl
  | [a] =>
    rw [show decode78 [a] = decGroup [a] from rfl, decGroup_length]
    simp
  | [a, b] =>
    rw [show decode78 [a, b] = decGroup [a, b] from rfl, decGroup_length]
    simp
  | [a, b, c] =>
    rw [show decode78 [a, b, c] = decGroup [a, b, c] from rfl, decGroup_length]
    simp
  | [a, b, c, d] =>
    rw [show decode78 [a, b, c, d] = decGroup [a, b, c, d] from rfl, decGroup_length]
    simp
  | [a, b, c, d, e] =>
    rw [show decode78 [a, b, c, d, e] = decGroup [a, b, c, d, e] from rfl, decGroup_length]
    simp
  | [a, b, c, d, e, f] =>
    rw [show decode78 [a, b, c, d, e, f] = decGroup [a, b, c, d, e, f] from rfl,
      decGroup_length]
    simp
  | [a, b, c, d, e, f, g] =>
    rw [show decode78 [a, b, c, d, e, f, g] = decGroup [a, b, c, d, e, f, g] from rfl,
      decGroup_length]
    simp
  | x0 :: x1 :: x2 :: x3 :: x4 :: x5 :: x6 :: x7 :: rest =>
    simp only [decode78, List.length_append, decGroup_length, List.length_cons]
    rw [decode78_length rest]
    omega

/-- C8: Pack/unpack round-trip: for every byte sequence whose length is a
multiple of 7, decoding the result of encoding it with the 7/8 codec
returns exactly the original sequence. -/
theorem c8_pack_unpack_roundtrip (x : List Nat) (hlen : x.length % 7 = 0)
    (hbytes : ∀ b ∈ x, b < 256) : decode78 (encode78 x) = x :=
  decode78_encode78 x hlen hbytes

/-- Witness for C8 at a concrete seven-byte input. -/
theorem c8_pack_unpack_roundtrip_witness :
    ([255, 85, 170, 1, 2, 3, 128] : List Nat).length % 7 = 0 ∧
      (∀ b ∈ ([255, 85, 170, 1, 2, 3, 128] : List Nat), b < 256) ∧
      decode78 (encode78 [255, 85, 170, 1, 2, 3, 128]) = [255, 85, 170, 1, 2, 3, 128] :=
  ⟨by decide, by decide, c8_pack_unpack_roundtrip _ (by decide) (by decide)⟩

/-- C7: Block-address cipher involution: applying `midiFirmwareCoder` twice
with the same base block number to a buffer of even length returns the
original buffer. -/
theorem c7_block_cipher_involution (baseBlockNum : Nat) (data : List Nat)
    (heven : data.length % 2 = 0) :
    midiFirmwareCoder baseBlockNum (midiFirmwareCoder baseBlockNum data) = data := by
  unfold midiFirmwareCoder
  exact mfcGo_invol _ data

/-- Witness for C7 at a concrete even-length input and base block 4. -/
theorem c7_block_cipher_involution_witness :
    ([10, 20, 30, 40, 50, 60] : List Nat).length % 2 = 0 ∧
      midiFirmwareCoder 4 (midiFirmwareCoder 4 [10, 20, 30, 40, 50, 60]) =
        [10, 20, 30, 40, 50, 60] :=
  ⟨by decide, c7_block_cipher_involution 4 _ (by decide)⟩

/-- C6 counterexample: the 7/8 unpack function does not fail on an input
whose length is not a multiple of 8; on the one-byte input `[0x41]` it
performs no length check and succeeds, producing seven bytes. -/
theorem c6_counterexample :
    decode78 [0x41] = [0x41, 0, 0, 0, 0, 0, 0] ∧ (decode78 [0x41]).length = 7 := by
  constructor <;> decide

/-- C6 (amended): `SevenEightCoder.decode` contains no length check and
never fails; every input, of any length, is consumed in groups of eight
bytes (a short final group reading past the end as zero bytes) and yields
seven output bytes per started group. -/
theorem c6_unpack_total (input : List Nat) :
    (decode78 input).length = 7 * ((input.length + 7) / 8) :=
  decode78_length input

/-! ## Sub-block packing, encode side (src/device/deq2496v2.js, packSubblock)

The header `[subHi, subLo, checksum]` is prepended to the payload, the
result is XOR-encrypted with the MIDI-block key and then 7/8-packed. -/

def packSubblock (binData : List Nat) (midiBlockNum : Nat) : List Nat :=
  encode78 (xorBytes KEY_FW_BLOCK
    ([midiBlockNum >>> 8, midiBlockNum &&& 0xFF, checksumTZ binData] ++ binData))

/-- The `insertMessage` helper of `encodeFirmware`: a queued display message
is NUL-padded to 256 bytes and packed as sub-block number 0xFF00.  An
absent or empty message (JavaScript falsy) emits nothing. -/
def insertMessage (messages : Nat → Option (List Nat)) (c : Nat) : List (List Nat) :=
  match messages c with
  | some m =>
      if m.isEmpty then []
      else [packSubblock (m ++ List.replicate (256 - m.length) 0) 0xFF00]
  | none => []

/-- `DEQ2496v2.encodeFirmware` (src/device/deq2496v2.js lines 134-238),
returning the list of SysEx payloads passed to the callback, in emission
order.  The buffer is app-key-encrypted when the address is 0x4000, padded
with 0xFF up to the next strict multiple of 4096 (a full extra block when
the length is already a multiple), and every 4 KiB block is run through the
block-address cipher before being split into sixteen packed sub-blocks.
The `.png` boot-logo conversion branch at address 0x7E000 applies only when
the input parses as a PNG image and is not modelled here. -/
def appEncrypted (address : Nat) (binData : List Nat) : List Nat :=
  if address == 0x4000 then xorBytes KEY_FW_APP binData else binData

def fwEncodeEvents (address : Nat) (binData : List Nat)
    (messages : Nat → Option (List Nat)) : List (List Nat) :=
  let binData1 := appEncrypted address binData
  let padded := binData1 ++ List.replicate (4096 - binData1.length % 4096) 0xFF
  let blockCount := padded.length >>> 12
  ((List.range blockCount).flatMap (fun i =>
    let blockNum := (address >>> 12) + i
    let blockContent := midiFirmwareCoder blockNum ((padded.drop (i <<< 12)).take 0x1000)
    (List.range 16).flatMap (fun sub =>
      insertMessage messages (i * 16 + sub) ++
        [packSubblock ((blockContent.drop (sub <<< 8)).take 256) ((blockNum <<< 4) ||| sub)])))
    ++ insertMessage messages (blockCount * 16)

/-- The model ID used by the DEQ2496 family (src/util.js, `models.deq2496`). -/
def DEQ2496_MODEL_ID : Nat := 0x12

/-- The seven header bytes pushed by `BehringerFirmware.encode` before each
callback payload: start sentinel, vendor tag, broadcast device ID, model
ID, firmware-write command. -/
def sysExHdr : List Nat := [0xF0, 0x00, 0x20, 0x32, 0x7F, DEQ2496_MODEL_ID, 0x34]

/-- `BehringerFirmware.encode` (src/firmware.js lines 166-197) for the
DEQ2496v2 profile: each callback payload is framed as
`F0 00 20 32 7F modelId 34 <payload> F7` and the frames are concatenated. -/
def fwEncode (address : Nat) (binData : List Nat)
    (messages : Nat → Option (List Nat)) : List Nat :=
  (fwEncodeEvents address binData messages).flatMap
    (fun content => sysExHdr ++ content ++ [0xF7])

/-! ## Envelope scanning (src/unnamed/part_012, `MIDIData.processMIDI`)

The loop scans for `0xF0`, searches forward for the next byte with the
high bit set, and emits the event when that byte is `0xF7`.  The `default`
arm of the `switch` statement does not advance `pos`. -/

/-- The inner `while` of `processMIDI`: the first index at or after `e`
whose byte has the high bit set, or the input length. -/
def pmFindEnd (buf : List Nat) (e : Nat) : Nat :=
  if e < buf.length then
    if buf.getD e 0 &&& 0x80 != 0 then e else pmFindEnd buf (e + 1)
  else e
termination_by buf.length - e

/-- One iteration of the `processMIDI` loop body at position `pos`
(`pos < buf.length`): returns the new position and the emitted event, if
any.  The event is `slice(pos, end)`, excluding the terminating 0xF7.  On a
byte other than 0xF0 the `default` arm leaves the position unchanged. -/
def pmStep (buf : List Nat) (pos : Nat) : Nat × Option (List Nat) :=
  if buf.getD pos 0 == 0xF0 then
    if buf.getD (pmFindEnd buf (pos + 1)) 0 == 0xF7 then
      (pmFindEnd buf (pos + 1) + 1, some ((buf.take (pmFindEnd buf (pos + 1))).drop pos))
    else (pmFindEnd buf (pos + 1), none)
  else (pos, none)

/-- The position after one `processMIDI` loop iteration (identity once the
end of the buffer is reached). -/
def pmNext (buf : List Nat) (pos : Nat) : Nat :=
  if pos < buf.length then (pmStep buf pos).1 else pos

/-- Fuel-bounded run of the `processMIDI` loop, collecting emitted events.
The JavaScript loop has no fuel: on inputs where an iteration fails to
advance (see the C4 analysis of `pmNext`) it never terminates, while this
function merely stops.  On inputs where every iteration advances the
position — in particular any concatenation of well-formed events — fuel
`buf.length + 1` is sufficient and the run agrees with the loop. -/
def pmRun (buf : List Nat) : Nat → Nat → List (List Nat)
  | 0, _ => []
  | fuel + 1, pos =>
    if pos < buf.length then
      match pmStep buf pos with
      | (pos1, some e) => e :: pmRun buf fuel pos1
      | (pos1, none) => pmRun buf fuel pos1
    else []

/-! ## SysEx parsing and the firmware decoder
(src/unnamed/part_012 `parseSysEx`, src/device/deq2496v2.js lines 38-111) -/

/-- The record returned by `MIDIData.parseSysEx`. -/
structure SysExInfo where
  deviceId : Nat
  modelId : Nat
  command : Nat
  binData : List Nat

/-- `MIDIData.parseSysEx`: vendor check, then header fields and payload
(the event here excludes the trailing 0xF7, as sliced by `processMIDI`). -/
def parseSysEx (e : List Nat) : Option SysExInfo :=
  if ((e.getD 1 0) <<< 16) ||| ((e.getD 2 0) <<< 8) ||| (e.getD 3 0) == 0x002032 then
    some ⟨e.getD 4 0, e.getD 5 0, e.getD 6 0, e.drop 7⟩
  else none

/-- `MIDIData.isSysEx` (src/unnamed/part_012): first byte 0xF0, last byte
0xF7, and no byte with the high bit set below 0xF0. -/
def isSysEx (binMIDI : List Nat) : Bool :=
  (binMIDI.getD 0 0 == 0xF0) && (binMIDI.getD (binMIDI.length - 1) 0 == 0xF7) &&
    binMIDI.all (fun b => !((b &&& 0x80 != 0) && decide (b < 0xF0)))

/-- Result of one `addMIDIWrite` call. -/
inductive MIDIWriteResult where
  | ignored : MIDIWriteResult
  | message : List Nat → MIDIWriteResult
  | stored : Nat → Nat → List Nat → MIDIWriteResult
deriving DecidableEq

/-- The display-message trim `flashContent.slice(0, flashContent.indexOf(0))`:
up to the first NUL byte; when no NUL is present, JavaScript `indexOf`
returns -1 and the slice drops the final byte instead. -/
def msgTrim (l : List Nat) : List Nat :=
  if l.contains 0 then l.takeWhile (fun x => x ≠ 0) else l.take (l.length - 1)

/-- `DEQ2496v2FirmwareDecoder.addMIDIWrite` acting on the sub-block store:
non-0x34 commands are ignored; the payload is 7/8-decoded and XOR-decrypted;
sub-block number 0xFF00 yields a display message; any other sub-block is
stored unconditionally together with its (unverified) checksum byte. -/
def addMIDIWrite (subblocks : Nat → Option (List Nat)) (info : SysExInfo) :
    (Nat → Option (List Nat)) × MIDIWriteResult :=
  if info.command != 0x34 then (subblocks, .ignored)
  else
    let data := xorBytes KEY_FW_BLOCK (decode78 info.binData)
    let blockNumber := ((data.getD 0 0) <<< 8) ||| (data.getD 1 0)
    let flashContent := data.drop 3
    if blockNumber == 0xFF00 then (subblocks, .message (msgTrim flashContent))
    else
      (fun n => if n = blockNumber then some flashContent else subblocks n,
        .stored blockNumber (data.getD 2 0) flashContent)

/-- `DEQ2496v2FirmwareDecoder.decodeBlock`: remove the block-address cipher
only for block indices 4 to 0x5A inclusive. -/
def decodeBlock (blockNum : Nat) (blockData : List Nat) : List Nat :=
  if 4 ≤ blockNum ∧ blockNum < 0x5B then midiFirmwareCoder blockNum blockData else blockData

/-- `DEQ2496v2FirmwareDecoder.getBlocks`: block index `i` (0..0x7F) is
present exactly when all sixteen sub-blocks `(i<<4)+0 .. (i<<4)+15` are
present; their concatenation is run through `decodeBlock`. -/
def getBlocks (subblocks : Nat → Option (List Nat)) (i : Nat) : Option (List Nat) :=
  if i < 0x80 then
    match (List.range 16).mapM (fun s => subblocks ((i <<< 4) + s)) with
    | some subs => some (decodeBlock i subs.flatten)
    | none => none
  else none

/-- `BehringerFirmware.decode` (src/firmware.js lines 72-128), SysEx branch,
with the DEQ2496v2 profile selected by the caller: run the `processMIDI`
scan, parse each event and feed it to `addMIDIWrite`, returning the final
sub-block store (`none` models the JavaScript crash on an event whose
vendor check fails, where `parseSysEx` returns `undefined`).  The scan is
given fuel `length + 1`, which covers every terminating run of the source
loop (each event consumes one iteration and advances the position). -/
def decodeFirmware (dataIn : List Nat) : Option (Nat → Option (List Nat)) :=
  if isSysEx dataIn then
    (pmRun dataIn (dataIn.length + 1) 0).foldlM
      (fun st e => (parseSysEx e).map (fun info => (addMIDIWrite st info).1))
      (fun _ => none)
  else none

/-! ## Profile identification (src/midiData.js, `MIDIData.identifySysEx`) -/

/-- The two firmware identities the stream decoder can report. -/
inductive FwId where
  | deq2496v2 : FwId
  | deq2496v1 : FwId
deriving DecidableEq

/-- `MIDIData.identifySysEx`, applied to one full SysEx event (including
the trailing 0xF7): after the vendor check, a command 0x34 event is
trial-decoded with the DEQ2496v2 key and that profile is returned when the
checksum of the first sub-block matches.  Otherwise the source computes
the DEQ2496v1 trial checksum but its comparison is commented out
(`if (true)`, lines 77-85): DEQ2496v1 is returned unconditionally. -/
def identifySysEx (block : List Nat) : Option FwId :=
  if ((block.getD 1 0) <<< 16) ||| ((block.getD 2 0) <<< 8) ||| (block.getD 3 0) == 0x002032 then
    if block.getD 6 0 == 0x34 then
      let data := decode78 ((block.take (block.length - 1)).drop 7)
      let testData := xorBytes KEY_FW_BLOCK data
      if testData.getD 2 0 == checksumTZ (testData.drop 3) then some FwId.deq2496v2
      else some FwId.deq2496v1
    else none
  else none

/-! ## Partition rendering (src/util.js, `BehringerUtil.blocksToImage`)

A sparse block map is modelled as `Nat → Option (List Nat)`; a JavaScript
`null` or `undefined` entry (both falsy) is `none`. -/

/-- The loop of `blocksToImage`, carrying the `imageBlocks` accumulator.
A missing block either appends a 0xFF-filled block (`keepMissing`), or ends
the loop if something was already emitted, or is skipped. -/
def btiGo (blocks : Nat → Option (List Nat)) (endBlock : Nat) (keepMissing : Bool)
    (i : Nat) (acc : List (List Nat)) : List (List Nat) :=
  if i < endBlock then
    match blocks i with
    | none =>
        if keepMissing then btiGo blocks endBlock keepMissing (i + 1) (acc ++ [List.replicate 0x1000 0xFF])
        else if acc.length ≠ 0 then acc
        else btiGo blocks endBlock keepMissing (i + 1) acc
    | some b => btiGo blocks endBlock keepMissing (i + 1) (acc ++ [b])
  else acc
termination_by endBlock - i

/-- `BehringerUtil.blocksToImage`: concatenation of the collected blocks. -/
def blocksToImage (blocks : Nat → Option (List Nat)) (firstBlock endBlock : Nat)
    (keepMissing : Bool) : List Nat :=
  (btiGo blocks endBlock keepMissing firstBlock []).flatten

/-- First index in `[f, e)` whose block is present, or `e`. -/
def firstPresent (blocks : Nat → Option (List Nat)) (f e : Nat) : Nat :=
  if f < e then
    if (blocks f).isSome then f else firstPresent blocks (f + 1) e
  else e
termination_by e - f

/-- First index in `[s, e)` whose block is missing, or `e`. -/
def runEnd (blocks : Nat → Option (List Nat)) (s e : Nat) : Nat :=
  if s < e then
    if (blocks s).isNone then s else runEnd blocks (s + 1) e
  else e
termination_by e - s

/-! ## Raw-binary decode branch (src/firmware.js lines 130-146) -/

/-- One block of the raw branch: scanned byte by byte; it stays `null`
(absent) unless some byte differs from 0xFF. -/
def rawBlock (blockContent : List Nat) : Option (List Nat) :=
  if blockContent.any (fun x => x != 0xFF) then some blockContent else none

/-- The sparse block map produced by `BehringerFirmware.decode` on a
raw-binary (non-SysEx) input: one entry per full 4096-byte block of the
input, absent when the block is all 0xFF. -/
def rawDecodeBlocks (dataIn : List Nat) (blockNum : Nat) : Option (List Nat) :=
  if blockNum < dataIn.length >>> 12 then
    rawBlock ((dataIn.drop (blockNum <<< 12)).take 0x1000)
  else none

/-! ## Claims C2, C3, C4, C5, C10 -/

/-- The packed length of one sub-block whose payload is 256 bytes:
8 per started group of 7 over the 259-byte header-plus-payload, i.e. 296. -/
theorem packSubblock_length (data : List Nat) (mbn : Nat) (hlen : data.length = 256) :
    (packSubblock data mbn).length = 296 := by
  unfold packSubblock
  rw [encode78_length, xorBytes_length]
  simp only [List.length_append, List.length_cons, List.length_nil, hlen]

/-- C5 (amended): the SysEx payload of a firmware sub-block event is the
7/8-packing of the XOR-encrypted 259-byte buffer
`[subHi, subLo, checksum, data[0..255]]`, and its packed length is
`8 * ceil(259/7) = 296` bytes (not 304: 304 is the length of the whole
SysEx event, these 296 bytes plus the 8 framing bytes). -/
theorem c5_subblock_payload (data : List Nat) (mbn : Nat) (hlen : data.length = 256) :
    packSubblock data mbn =
      encode78 (xorBytes KEY_FW_BLOCK
        ([mbn >>> 8, mbn &&& 0xFF, checksumTZ data] ++ data)) ∧
      (packSubblock data mbn).length = 296 ∧
      (packSubblock data mbn).length = 8 * ((259 + 6) / 7) :=
  ⟨rfl, packSubblock_length data mbn hlen, by rw [packSubblock_length data mbn hlen]⟩

/-- Witness for C5 at a concrete 256-byte payload. -/
theorem c5_subblock_payload_witness :
    (List.replicate 256 (0 : Nat)).length = 256 ∧
      (packSubblock (List.replicate 256 0) 0xFF00).length = 296 :=
  ⟨by rw [List.length_replicate],
    (c5_subblock_payload (List.replicate 256 0) 0xFF00 (by rw [List.length_replicate])).2.1⟩

/-- C5 counterexample: the packed payload of a 256-byte sub-block has
length 296, not 304 as the claim computes. -/
theorem c5_counterexample :
    (packSubblock (List.replicate 256 0) 0xFF00).length = 296 ∧
      (packSubblock (List.replicate 256 0) 0xFF00).length ≠ 304 := by
  have h := packSubblock_length (List.replicate 256 0) 0xFF00 (by rw [List.length_replicate])
  exact ⟨h, by omega⟩

/-- C2 (amended): for a firmware-write event whose sub-block number is not
0xFF00, `addMIDIWrite` extracts the checksum byte but never verifies it:
the sub-block is stored unconditionally, even when the transmitted checksum
differs from the recomputation, and no failure occurs. -/
theorem c2_no_checksum_verification (subblocks : Nat → Option (List Nat))
    (info : SysExInfo) (hcmd : info.command = 0x34)
    (hbn : (((xorBytes KEY_FW_BLOCK (decode78 info.binData)).getD 0 0) <<< 8) |||
      ((xorBytes KEY_FW_BLOCK (decode78 info.binData)).getD 1 0) ≠ 0xFF00)
    (hmismatch : (xorBytes KEY_FW_BLOCK (decode78 info.binData)).getD 2 0 ≠
      checksumTZ ((xorBytes KEY_FW_BLOCK (decode78 info.binData)).drop 3)) :
    (addMIDIWrite subblocks info).2 =
        MIDIWriteResult.stored
          ((((xorBytes KEY_FW_BLOCK (decode78 info.binData)).getD 0 0) <<< 8) |||
            ((xorBytes KEY_FW_BLOCK (decode78 info.binData)).getD 1 0))
          ((xorBytes KEY_FW_BLOCK (decode78 info.binData)).getD 2 0)
          ((xorBytes KEY_FW_BLOCK (decode78 info.binData)).drop 3) ∧
      (addMIDIWrite subblocks info).1
          ((((xorBytes KEY_FW_BLOCK (decode78 info.binData)).getD 0 0) <<< 8) |||
            ((xorBytes KEY_FW_BLOCK (decode78 info.binData)).getD 1 0)) =
        some ((xorBytes KEY_FW_BLOCK (decode78 info.binData)).drop 3) := by
  unfold addMIDIWrite
  rw [if_neg (by simp [hcmd])]
  rw [if_neg (by simpa using hbn)]
  exact ⟨rfl, by simp⟩

set_option maxRecDepth 40000 in
/-- Witness for C2: a concrete event whose transmitted checksum does not
match is stored anyway. -/
theorem c2_no_checksum_verification_witness :
    (SysExInfo.mk 0x7F 0x12 0x34 (List.replicate 8 0)).command = 0x34 ∧
      (addMIDIWrite (fun _ => none) (SysExInfo.mk 0x7F 0x12 0x34 (List.replicate 8 0))).1
          ((((xorBytes KEY_FW_BLOCK (decode78 (List.replicate 8 0))).getD 0 0) <<< 8) |||
            ((xorBytes KEY_FW_BLOCK (decode78 (List.replicate 8 0))).getD 1 0)) =
        some ((xorBytes KEY_FW_BLOCK (decode78 (List.replicate 8 0))).drop 3) :=
  ⟨rfl, (c2_no_checksum_verification (fun _ => none) _ rfl (by decide) (by decide)).2⟩

set_option maxRecDepth 40000 in
/-- C2 counterexample: a concrete firmware-write event whose checksum byte
(0x27) differs from the recomputed checksum is stored, and the decoder
reports it as a stored sub-block rather than failing. -/
theorem c2_counterexample :
    ((xorBytes KEY_FW_BLOCK (decode78 (List.replicate 8 0))).getD 2 0 ≠
        checksumTZ ((xorBytes KEY_FW_BLOCK (decode78 (List.replicate 8 0))).drop 3)) ∧
      (addMIDIWrite (fun _ => none) (SysExInfo.mk 0x7F 0x12 0x34 (List.replicate 8 0))).2 =
        MIDIWriteResult.stored 0x545A 0x27 [0x30, 0x34, 0x54, 0x5A] ∧
      (addMIDIWrite (fun _ => none) (SysExInfo.mk 0x7F 0x12 0x34 (List.replicate 8 0))).1
          0x545A = some [0x30, 0x34, 0x54, 0x5A] := by
  refine ⟨by decide, by decide, by decide⟩

/-- C3 (amended): on a vendor-tagged command-0x34 event, the profile whose
trial-decode checksum matches first (DEQ2496v2) is selected; when the
DEQ2496v2 checksum does not match, `identifySysEx` selects DEQ2496v1
unconditionally — its checksum is not consulted and no ambiguity failure
is possible at this stage. -/
theorem c3_fallback_assumes_v1 (block : List Nat)
    (hvendor : ((block.getD 1 0) <<< 16) ||| ((block.getD 2 0) <<< 8) ||| (block.getD 3 0) =
      0x002032)
    (hcmd : block.getD 6 0 = 0x34)
    (hmismatch : (xorBytes KEY_FW_BLOCK
        (decode78 ((block.take (block.length - 1)).drop 7))).getD 2 0 ≠
      checksumTZ ((xorBytes KEY_FW_BLOCK
        (decode78 ((block.take (block.length - 1)).drop 7))).drop 3)) :
    identifySysEx block = some FwId.deq2496v1 := by
  unfold identifySysEx
  rw [if_pos (by simpa using hvendor), if_pos (by simpa using hcmd),
    if_neg (by simpa using hmismatch)]

set_option maxRecDepth 40000 in
/-- Witness for C3 at a concrete event whose DEQ2496v2 trial checksum
fails. -/
theorem c3_fallback_assumes_v1_witness :
    identifySysEx [0xF0, 0, 0x20, 0x32, 0x7F, 0x12, 0x34, 0, 0, 0, 0, 0, 0, 0, 0, 0xF7] =
      some FwId.deq2496v1 :=
  c3_fallback_assumes_v1 _ (by decide) (by decide) (by decide)

set_option maxRecDepth 40000 in
/-- C3 counterexample: a concrete event on which NEITHER profile's trial
checksum matches, yet `identifySysEx` silently selects DEQ2496v1 (whose
checksum did not match) instead of failing with an ambiguity error. -/
theorem c3_counterexample :
    ((xorBytes KEY_FW_BLOCK (decode78 (List.replicate 8 0))).getD 2 0 ≠
        checksumTZ ((xorBytes KEY_FW_BLOCK (decode78 (List.replicate 8 0))).drop 3)) ∧
      ((xorBytes KEY_FW_BLOCK_1 (decode78 (List.replicate 8 0))).getD 2 0 ≠
        checksumTZ ((xorBytes KEY_FW_BLOCK_1 (decode78 (List.replicate 8 0))).drop 3)) ∧
      identifySysEx [0xF0, 0, 0x20, 0x32, 0x7F, 0x12, 0x34, 0, 0, 0, 0, 0, 0, 0, 0, 0xF7] =
        some FwId.deq2496v1 := by
  refine ⟨by decide, by decide, by decide⟩

/-- C4: the `processMIDI` scanning loop does NOT terminate on every finite
input: on the one-byte input `[0x00]` the `default` arm of the `switch`
never advances `pos`, so after any number of iterations the position is
still strictly inside the input — the loop never reaches the end.  (The
spec requires the codec to be bounded by input size; the missing `pos`
increment in the `default` arm is a slip, shared by
`MIDIData.blocksFromSysEx`.) -/
theorem c4_scan_never_reaches_end (n : Nat) :
    (pmNext [0x00])^[n] 0 = 0 ∧ (pmNext [0x00])^[n] 0 < ([0x00] : List Nat).length := by
  have h : ∀ m : Nat, (pmNext [0x00])^[m] 0 = 0 := by
    intro m
    induction m with
    | zero => rfl
    | succ k ih => rw [Function.iterate_succ_apply', ih]; rfl
  refine ⟨h n, ?_⟩
  rw [h n]
  simp

/-- C10: the raw-binary decode branch records an all-0xFF block as absent
and stores any block containing a byte other than 0xFF verbatim at its
block index (hence the number of present blocks can be smaller than
`length / 4096`). -/
theorem c10_raw_binary_sparse (dataIn : List Nat) (blockNum : Nat)
    (h : blockNum < dataIn.length >>> 12) :
    ((∀ x ∈ (dataIn.drop (blockNum <<< 12)).take 0x1000, x = 0xFF) →
        rawDecodeBlocks dataIn blockNum = none) ∧
      ((∃ x ∈ (dataIn.drop (blockNum <<< 12)).take 0x1000, x ≠ 0xFF) →
        rawDecodeBlocks dataIn blockNum =
          some ((dataIn.drop (blockNum <<< 12)).take 0x1000)) := by
  constructor
  · intro hall
    unfold rawDecodeBlocks rawBlock
    rw [if_pos h, if_neg]
    intro hany
    simp only [List.any_eq_true, bne_iff_ne, ne_eq] at hany
    obtain ⟨x, hx, hne⟩ := hany
    exact hne (hall x hx)
  · intro hex
    unfold rawDecodeBlocks rawBlock
    rw [if_pos h, if_pos]
    simp only [List.any_eq_true, bne_iff_ne, ne_eq]
    obtain ⟨x, hx, hne⟩ := hex
    exact ⟨x, hx, hne⟩

/-- Witness for C10: a two-block input whose first block is all 0xFF
(dropped) and whose second block starts with a zero byte (kept). -/
theorem c10_raw_binary_sparse_witness :
    (0 < (List.replicate 4096 (255 : Nat) ++ List.replicate 4096 0).length >>> 12) ∧
      rawDecodeBlocks (List.replicate 4096 255 ++ List.replicate 4096 0) 0 = none := by
  have hlen : 0 < (List.replicate 4096 (255 : Nat) ++ List.replicate 4096 0).length >>> 12 := by
    rw [List.length_append, List.length_replicate, List.length_replicate]
    decide
  refine ⟨hlen, (c10_raw_binary_sparse _ 0 hlen).1 ?_⟩
  intro x hx
  rw [show (0 <<< 12 : Nat) = 0 from rfl, List.drop_zero,
    List.take_append_of_le_length (by rw [List.length_replicate]),
    List.take_replicate] at hx
  exact List.eq_of_mem_replicate hx

/-! ## Properties of the partition rendering -/

theorem firstPresent_le (blocks : Nat → Option (List Nat)) (f e : Nat) :
    firstPresent blocks f e ≤ e := by
  rw [firstPresent]
  split
  · split
    · omega
    · exact firstPresent_le blocks (f + 1) e
  · omega
termination_by e - f

theorem firstPresent_none (blocks : Nat → Option (List Nat)) (f e : Nat) :
    ∀ m, f ≤ m → m < firstPresent blocks f e → blocks m = none := by
  intro m hm1 hm2
  rw [firstPresent] at hm2
  by_cases h : f < e
  · rw [if_pos h] at hm2
    by_cases hp : (blocks f).isSome
    · rw [if_pos hp] at hm2
      omega
    · rw [if_neg hp] at hm2
      by_cases hmf : m = f
      · subst hmf
        exact Option.not_isSome_iff_eq_none.mp hp
      · exact firstPresent_none blocks (f + 1) e m (by omega) hm2
  · rw [if_neg h] at hm2
    omega
termination_by e - f

theorem firstPresent_isSome (blocks : Nat → Option (List Nat)) (f e : Nat)
    (h : firstPresent blocks f e < e) : (blocks (firstPresent blocks f e)).isSome := by
  rw [firstPresent] at h ⊢
  by_cases hf : f < e
  · rw [if_pos hf] at h ⊢
    by_cases hp : (blocks f).isSome
    · rw [if_pos hp] at h ⊢
      exact hp
    · rw [if_neg hp] at h ⊢
      exact firstPresent_isSome blocks (f + 1) e h
  · rw [if_neg hf] at h
    omega
termination_by e - f

theorem runEnd_ge (blocks : Nat → Option (List Nat)) (s e : Nat) (hse : s ≤ e) :
    s ≤ runEnd blocks s e := by
  rw [runEnd]
  split
  · split
    · omega
    · have := runEnd_ge blocks (s + 1) e (by omega)
      omega
  · omega
termination_by e - s

theorem runEnd_le (blocks : Nat → Option (List Nat)) (s e : Nat) :
    runEnd blocks s e ≤ e := by
  rw [runEnd]
  split
  · split
    · omega
    · exact runEnd_le blocks (s + 1) e
  · omega
termination_by e - s

theorem runEnd_isSome (blocks : Nat → Option (List Nat)) (s e : Nat) :
    ∀ m, s ≤ m → m < runEnd blocks s e → (blocks m).isSome := by
  intro m hm1 hm2
  rw [runEnd] at hm2
  by_cases h : s < e
  · rw [if_pos h] at hm2
    by_cases hp : (blocks s).isNone
    · rw [if_pos hp] at hm2
      omega
    · rw [if_neg hp] at hm2
      by_cases hms : m = s
      · subst hms
        simpa [Option.isNone_iff_eq_none, Option.isSome_iff_ne_none] using hp
      · exact runEnd_isSome blocks (s + 1) e m (by omega) hm2
  · rw [if_neg h] at hm2
    omega
termination_by e - s

theorem runEnd_none (blocks : Nat → Option (List Nat)) (s e : Nat)
    (h : runEnd blocks s e < e) : blocks (runEnd blocks s e) = none := by
  rw [runEnd] at h ⊢
  by_cases hs : s < e
  · rw [if_pos hs] at h ⊢
    by_cases hp : (blocks s).isNone
    · rw [if_pos hp] at h ⊢
      exact Option.isNone_iff_eq_none.mp hp
    · rw [if_neg hp] at h ⊢
      exact runEnd_none blocks (s + 1) e h
  · rw [if_neg hs] at h
    omega
termination_by e - s

theorem runEnd_gt (blocks : Nat → Option (List Nat)) (s e : Nat) (hse : s < e)
    (hsome : (blocks s).isSome) : s < runEnd blocks s e := by
  have hnn : ¬ (blocks s).isNone = true := by
    simp only [Option.isNone_iff_eq_none]
    exact Option.ne_none_iff_isSome.mpr hsome
  rw [runEnd, if_pos hse, if_neg hnn]
  have := runEnd_ge blocks (s + 1) e (by omega)
  omega

/-- The gap-fill loop appends one 0xFF block or one present block per index. -/
theorem btiGo_keep (blocks : Nat → Option (List Nat)) (e i : Nat) (acc : List (List Nat)) :
    btiGo blocks e true i acc =
      acc ++ (List.range' i (e - i)).map
        (fun j => (blocks j).getD (List.replicate 0x1000 0xFF)) := by
  by_cases h : i < e
  · rw [btiGo, if_pos h]
    have hn : e - i = (e - (i + 1)) + 1 := by omega
    rw [hn, List.range'_succ, List.map_cons]
    cases hb : blocks i with
    | none =>
      show btiGo blocks e true (i + 1) (acc ++ [List.replicate 0x1000 0xFF]) = _
      rw [btiGo_keep blocks e (i + 1) (acc ++ [List.replicate 0x1000 0xFF])]
      simp only [Option.getD_none, List.append_assoc, List.singleton_append]
    | some b =>
      show btiGo blocks e true (i + 1) (acc ++ [b]) = _
      rw [btiGo_keep blocks e (i + 1) (acc ++ [b])]
      simp only [Option.getD_some, List.append_assoc, List.singleton_append]
  · rw [btiGo, if_neg h]
    have hn : e - i = 0 := by omega
    rw [hn]
    simp only [List.range'_zero, List.map_nil, List.append_nil]
termination_by e - i

/-- The gap-sensitive loop skips missing blocks while nothing has been
emitted. -/
theorem btiGo_skip (blocks : Nat → Option (List Nat)) (e i j : Nat) (hij : i ≤ j)
    (hje : j ≤ e) (hmiss : ∀ m, i ≤ m → m < j → blocks m = none) :
    btiGo blocks e false i [] = btiGo blocks e false j [] := by
  by_cases h : i < j
  · rw [btiGo, if_pos (by omega), hmiss i (by omega) h]
    show btiGo blocks e false (i + 1) [] = _
    exact btiGo_skip blocks e (i + 1) j (by omega) hje
      (fun m hm1 hm2 => hmiss m (by omega) hm2)
  · have : i = j := by omega
    rw [this]
termination_by j - i

/-- The gap-sensitive loop accumulates all blocks of a present run. -/
theorem btiGo_present (blocks : Nat → Option (List Nat)) (e i r : Nat) (acc : List (List Nat))
    (hir : i ≤ r) (hre : r ≤ e) (hpres : ∀ m, i ≤ m → m < r → (blocks m).isSome) :
    btiGo blocks e false i acc =
      btiGo blocks e false r (acc ++ (List.range' i (r - i)).filterMap blocks) := by
  by_cases h : i < r
  · obtain ⟨b, hb⟩ := Option.isSome_iff_exists.mp (hpres i (by omega) h)
    rw [btiGo, if_pos (by omega), hb]
    show btiGo blocks e false (i + 1) (acc ++ [b]) = _
    have hn : r - i = (r - (i + 1)) + 1 := by omega
    rw [hn, List.range'_succ, List.filterMap_cons, hb]
    rw [btiGo_present blocks e (i + 1) r (acc ++ [b]) (by omega) hre
      (fun m hm1 hm2 => hpres m (by omega) hm2)]
    simp only [List.append_assoc, List.singleton_append]
  · have : i = r := by omega
    subst this
    simp only [Nat.sub_self, List.range'_zero, List.filterMap_nil, List.append_nil]
termination_by r - i

theorem firstPresent_ge (blocks : Nat → Option (List Nat)) (f e : Nat) (hfe : f ≤ e) :
    f ≤ firstPresent blocks f e := by
  rw [firstPresent]
  split
  · split
    · omega
    · have := firstPresent_ge blocks (f + 1) e (by omega)
      omega
  · omega
termination_by e - f

/-- C9: partition rendering policies.  The gap-fill rendering substitutes a
4096-byte 0xFF block for every missing block of the range.  The
gap-sensitive rendering emits exactly the blocks of the first contiguous
present run: missing blocks before the first present block are skipped, and
emission stops at the first missing block that follows at least one emitted
block. -/
theorem c9_partition_rendering (blocks : Nat → Option (List Nat)) (f e : Nat) :
    blocksToImage blocks f e true =
      ((List.range' f (e - f)).map
        (fun j => (blocks j).getD (List.replicate 0x1000 0xFF))).flatten ∧
      blocksToImage blocks f e false =
        ((List.range' (firstPresent blocks f e)
          (runEnd blocks (firstPresent blocks f e) e - firstPresent blocks f e)).filterMap
            blocks).flatten := by
  constructor
  · unfold blocksToImage
    rw [btiGo_keep]
    rw [List.nil_append]
  · unfold blocksToImage
    by_cases hfe : f ≤ e
    · have hsf : f ≤ firstPresent blocks f e := firstPresent_ge blocks f e hfe
      have hse : firstPresent blocks f e ≤ e := firstPresent_le blocks f e
      have hsr : firstPresent blocks f e ≤ runEnd blocks (firstPresent blocks f e) e :=
        runEnd_ge blocks _ e hse
      have hre : runEnd blocks (firstPresent blocks f e) e ≤ e := runEnd_le blocks _ e
      rw [btiGo_skip blocks e f (firstPresent blocks f e) hsf hse
        (firstPresent_none blocks f e)]
      rw [btiGo_present blocks e (firstPresent blocks f e)
        (runEnd blocks (firstPresent blocks f e) e) [] hsr hre
        (runEnd_isSome blocks (firstPresent blocks f e) e)]
      rw [List.nil_append]
      set s := firstPresent blocks f e with hs
      set r := runEnd blocks s e with hr
      set A := (List.range' s (r - s)).filterMap blocks with hA
      by_cases hrlt : r < e
      · have hnone : blocks r = none := runEnd_none blocks s e hrlt
        have hslt : s < e := by omega
        have hsome : (blocks s).isSome := firstPresent_isSome blocks f e hslt
        have hgt : s < r := runEnd_gt blocks s e hslt hsome
        have hAne : A.length ≠ 0 := by
          obtain ⟨b, hb⟩ := Option.isSome_iff_exists.mp hsome
          rw [hA, show r - s = (r - s - 1) + 1 from by omega, List.range'_succ,
            List.filterMap_cons, hb]
          simp
        rw [btiGo, if_pos hrlt, hnone]
        show (if A.length ≠ 0 then A else btiGo blocks e false (r + 1) A).flatten = A.flatten
        rw [if_pos hAne]
      · rw [btiGo, if_neg hrlt]
    · have hfp : firstPresent blocks f e = e := by
        rw [firstPresent, if_neg (by omega)]
      have hrn : runEnd blocks e e = e := by
        rw [runEnd, if_neg (by omega)]
      rw [btiGo, if_neg (by omega), hfp, hrn]
      simp

/-! ## Towards the encode/decode round trip (C1) -/

theorem crcBitRound_lt (p : Nat × Nat) (h : p.2 < 256) : (crcBitRound p).2 < 256 := by
  unfold crcBitRound
  have h1 : (if (p.1 ^^^ p.2) &&& 1 == 0 then p.2 ^^^ 0x19 else p.2) < 256 := by
    split
    · exact xor_lt_256 _ _ h (by omega)
    · exact h
  set crc1 := if (p.1 ^^^ p.2) &&& 1 == 0 then p.2 ^^^ 0x19 else p.2
  have e1 : (crc1 &&& 1) <<< 7 < 2 ^ 8 := by
    rw [Nat.shiftLeft_eq]
    have : crc1 &&& 1 ≤ 1 := Nat.and_le_right
    have : (crc1 &&& 1) * 2 ^ 7 ≤ 1 * 2 ^ 7 := Nat.mul_le_mul_right _ this
    omega
  have e2 : crc1 >>> 1 < 2 ^ 8 := by
    rw [Nat.shiftRight_eq_div_pow]
    omega
  have := Nat.or_lt_two_pow (n := 8) e1 e2
  simpa using this

theorem crcByte_lt (crc b : Nat) (h : crc < 256) : crcByte crc b < 256 := by
  unfold crcByte
  have key : ∀ n (p : Nat × Nat), p.2 < 256 → (crcBitRound^[n] p).2 < 256 := by
    intro n
    induction n with
    | zero => intro p hp; simpa using hp
    | succ m ih =>
      intro p hp
      rw [Function.iterate_succ_apply]
      exact ih _ (crcBitRound_lt p hp)
  exact key 8 (b, crc) h

theorem checksumTZ_lt (data : List Nat) : checksumTZ data < 256 := by
  unfold checksumTZ
  have key : ∀ (l : List Nat) (c : Nat), c < 256 → l.foldl crcByte c < 256 := by
    intro l
    induction l with
    | nil => intro c hc; simpa using hc
    | cons x xs ih =>
      intro c hc
      rw [List.foldl_cons]
      exact ih _ (crcByte_lt c x hc)
  exact xor_lt_256 _ _ (key data 0 (by omega)) (by omega)

theorem KEY_FW_BLOCK_lt : ∀ x ∈ KEY_FW_BLOCK, x < 256 := by decide

theorem KEY_FW_APP_lt : ∀ x ∈ KEY_FW_APP, x < 256 := by decide

/-- All bytes of one packed sub-block have their high bit clear. -/
theorem packSubblock_lt_128 (data : List Nat) (mbn : Nat)
    (hd : ∀ x ∈ data, x < 256) (hmbn : mbn < 65536) :
    ∀ x ∈ packSubblock data mbn, x < 128 := by
  unfold packSubblock
  apply encode78_lt_128
  apply xorBytes_lt_256 _ KEY_FW_BLOCK_lt
  intro x hx
  simp only [List.cons_append, List.nil_append, List.mem_cons] at hx
  rcases hx with rfl | rfl | rfl | h
  · rw [shr8]
    omega
  · rw [and255]
    omega
  · exact checksumTZ_lt data
  · exact hd x h

/-- Decoding one packed sub-block in `addMIDIWrite` stores exactly the
original payload at the original sub-block number. -/
theorem addMIDIWrite_packSubblock (st : Nat → Option (List Nat)) (data : List Nat) (mbn : Nat)
    (hlen : data.length = 256) (hd : ∀ x ∈ data, x < 256) (hmbn : mbn < 65536)
    (hne : mbn ≠ 0xFF00) :
    addMIDIWrite st (SysExInfo.mk 0x7F DEQ2496_MODEL_ID 0x34 (packSubblock data mbn)) =
      ((fun n => if n = mbn then some data else st n),
        MIDIWriteResult.stored mbn (checksumTZ data) data) := by
  unfold addMIDIWrite packSubblock
  rw [if_neg (by simp)]
  have hdec : decode78 (encode78 (xorBytes KEY_FW_BLOCK
      ([mbn >>> 8, mbn &&& 0xFF, checksumTZ data] ++ data))) =
      xorBytes KEY_FW_BLOCK ([mbn >>> 8, mbn &&& 0xFF, checksumTZ data] ++ data) := by
    apply decode78_encode78
    · rw [xorBytes_length]
      simp only [List.length_append, List.length_cons, List.length_nil, hlen]
    · apply xorBytes_lt_256 _ KEY_FW_BLOCK_lt
      intro x hx
      simp only [List.cons_append, List.nil_append, List.mem_cons] at hx
      rcases hx with rfl | rfl | rfl | h
      · rw [shr8]
        omega
      · rw [and255]
        omega
      · exact checksumTZ_lt data
      · exact hd x h
  simp only [SysExInfo.binData, hdec, xorBytes_invol]
  simp only [List.cons_append, List.nil_append, List.getD_cons_zero, List.getD_cons_succ,
    List.drop_succ_cons, List.drop_zero]
  rw [hiLoRecombine]
  rw [if_neg (by simpa using hne)]

/-! ## Envelope scanning lemmas -/

theorem getD_append_ge (l1 l2 : List Nat) (n : Nat) (h : l1.length ≤ n) :
    (l1 ++ l2).getD n 0 = l2.getD (n - l1.length) 0 := by
  rw [List.getD_eq_getElem?_getD, List.getD_eq_getElem?_getD, List.getElem?_append_right h]

theorem low_and80 (x : Nat) (h : x < 128) : x &&& 0x80 = 0 := by
  rw [show (0x80 : Nat) = 128 from rfl, and128]
  omega

theorem pmFindEnd_ge (buf : List Nat) (e : Nat) : e ≤ pmFindEnd buf e := by
  rw [pmFindEnd]
  split
  · split
    · omega
    · have := pmFindEnd_ge buf (e + 1)
      omega
  · omega
termination_by buf.length - e

theorem pmFindEnd_append (pre buf : List Nat) (e : Nat) (he : pre.length ≤ e) :
    pmFindEnd (pre ++ buf) e = pre.length + pmFindEnd buf (e - pre.length) := by
  conv_lhs => rw [pmFindEnd]
  conv_rhs => rw [pmFindEnd]
  by_cases h : e < (pre ++ buf).length
  · have h2 : e - pre.length < buf.length := by
      rw [List.length_append] at h
      omega
    rw [if_pos h, if_pos h2, getD_append_ge pre buf e he]
    by_cases hb : (buf.getD (e - pre.length) 0 &&& 0x80 != 0) = true
    · rw [if_pos hb, if_pos hb]
      omega
    · rw [if_neg hb, if_neg hb, pmFindEnd_append pre buf (e + 1) (by omega)]
      rw [show e + 1 - pre.length = (e - pre.length) + 1 from by omega]
  · have h2 : ¬ (e - pre.length < buf.length) := by
      rw [List.length_append] at h
      omega
    rw [if_neg h, if_neg h2]
    omega
termination_by (pre ++ buf).length - e

theorem pmStep_fst_ge (buf : List Nat) (pos : Nat) : pos ≤ (pmStep buf pos).1 := by
  unfold pmStep
  have hge := pmFindEnd_ge buf (pos + 1)
  by_cases h1 : (buf.getD pos 0 == 0xF0) = true
  · rw [if_pos h1]
    by_cases h2 : (buf.getD (pmFindEnd buf (pos + 1)) 0 == 0xF7) = true
    · rw [if_pos h2]
      show pos ≤ pmFindEnd buf (pos + 1) + 1
      omega
    · rw [if_neg h2]
      show pos ≤ pmFindEnd buf (pos + 1)
      omega
  · rw [if_neg h1]

theorem pmStep_append (pre buf : List Nat) (pos : Nat) (h : pre.length ≤ pos) :
    pmStep (pre ++ buf) pos =
      (pre.length + (pmStep buf (pos - pre.length)).1, (pmStep buf (pos - pre.length)).2) := by
  unfold pmStep
  rw [getD_append_ge pre buf pos h]
  have hfe := pmFindEnd_append pre buf (pos + 1) (by omega)
  rw [show pos + 1 - pre.length = (pos - pre.length) + 1 from by omega] at hfe
  have hge := pmFindEnd_ge buf (pos - pre.length + 1)
  by_cases hf0 : (buf.getD (pos - pre.length) 0 == 0xF0) = true
  · rw [if_pos hf0, if_pos hf0, hfe,
      getD_append_ge pre buf _ (Nat.le_add_right pre.length _),
      show pre.length + pmFindEnd buf (pos - pre.length + 1) - pre.length =
        pmFindEnd buf (pos - pre.length + 1) from by omega]
    by_cases hf7 : (buf.getD (pmFindEnd buf (pos - pre.length + 1)) 0 == 0xF7) = true
    · rw [if_pos hf7, if_pos hf7]
      have htake : (pre ++ buf).take (pre.length + pmFindEnd buf (pos - pre.length + 1)) =
          pre ++ buf.take (pmFindEnd buf (pos - pre.length + 1)) := by
        rw [List.take_append_eq_append_take,
          List.take_of_length_le (Nat.le_add_right pre.length _),
          show pre.length + pmFindEnd buf (pos - pre.length + 1) - pre.length =
            pmFindEnd buf (pos - pre.length + 1) from by omega]
      have hdrop : (pre ++ buf.take (pmFindEnd buf (pos - pre.length + 1))).drop pos =
          (buf.take (pmFindEnd buf (pos - pre.length + 1))).drop (pos - pre.length) := by
        rw [List.drop_append_eq_append_drop, List.drop_of_length_le (by omega)]
        simp
      rw [htake, hdrop]
      simp only [Prod.mk.injEq]
      exact ⟨by omega, trivial⟩
    · rw [if_neg hf7, if_neg hf7]
  · rw [if_neg hf0, if_neg hf0]
    simp only [Prod.mk.injEq]
    exact ⟨by omega, trivial⟩

theorem pmRun_append (pre buf : List Nat) (fuel : Nat) :
    ∀ pos, pre.length ≤ pos →
      pmRun (pre ++ buf) fuel pos = pmRun buf fuel (pos - pre.length) := by
  induction fuel with
  | zero => intro pos _; rfl
  | succ f ih =>
    intro pos hpos
    simp only [pmRun]
    by_cases hp : pos - pre.length < buf.length
    · rw [if_pos (by rw [List.length_append]; omega), if_pos hp]
      rw [pmStep_append pre buf pos hpos]
      rcases hstep : pmStep buf (pos - pre.length) with ⟨p1, ev⟩
      have hge : pos - pre.length ≤ p1 := by
        have := pmStep_fst_ge buf (pos - pre.length)
        rw [hstep] at this
        simpa using this
      cases ev with
      | none =>
        show pmRun (pre ++ buf) f (pre.length + p1) = pmRun buf f p1
        rw [ih _ (by omega)]
        rw [show pre.length + p1 - pre.length = p1 from by omega]
      | some e =>
        show e :: pmRun (pre ++ buf) f (pre.length + p1) = e :: pmRun buf f p1
        rw [ih _ (by omega)]
        rw [show pre.length + p1 - pre.length = p1 from by omega]
    · rw [if_neg (by rw [List.length_append]; omega), if_neg hp]

/-- Scanning past a run of low bytes finds the first high byte. -/
theorem pmFindEnd_low (low : List Nat) : ∀ (pre post : List Nat),
    (∀ x ∈ low, x &&& 0x80 = 0) → post ≠ [] → post.getD 0 0 &&& 0x80 ≠ 0 →
    pmFindEnd (pre ++ low ++ post) pre.length = pre.length + low.length := by
  induction low with
  | nil =>
    intro pre post _ hpost hhigh
    rw [pmFindEnd]
    have hlen : pre.length < (pre ++ [] ++ post).length := by
      simp only [List.append_nil, List.length_append]
      cases post with
      | nil => exact absurd rfl hpost
      | cons y ys => simp
    rw [if_pos hlen]
    have hg : (pre ++ [] ++ post).getD pre.length 0 = post.getD 0 0 := by
      rw [List.append_nil, getD_append_ge pre post _ (Nat.le_refl _), Nat.sub_self]
    rw [hg, if_pos (by simpa using hhigh)]
    simp
  | cons x low1 ih =>
    intro pre post hlow hpost hhigh
    rw [pmFindEnd]
    have hlen : pre.length < (pre ++ (x :: low1) ++ post).length := by
      simp only [List.length_append, List.length_cons]
      omega
    rw [if_pos hlen]
    have hg : (pre ++ (x :: low1) ++ post).getD pre.length 0 = x := by
      rw [List.append_assoc, getD_append_ge pre _ _ (Nat.le_refl _), Nat.sub_self]
      rfl
    rw [hg]
    have hx : (x &&& 0x80 != 0) = false := by
      simp [hlow x (by simp)]
    rw [if_neg (by simp [hx])]
    have hre : pre ++ (x :: low1) ++ post = (pre ++ [x]) ++ low1 ++ post := by
      simp
    rw [hre, show pre.length + 1 = (pre ++ [x]).length from by simp]
    rw [ih (pre ++ [x]) post (fun y hy => hlow y (by simp [hy])) hpost hhigh]
    simp
    omega

/-- One scan step at the start of a framed event consumes the whole frame
and emits the event without its trailing 0xF7. -/
theorem pmStep_wrap (c rest : List Nat) (hc : ∀ x ∈ c, x < 128) :
    pmStep ((sysExHdr ++ c ++ [0xF7]) ++ rest) 0 =
      (8 + c.length, some (sysExHdr ++ c)) := by
  have hlow : ∀ x ∈ [0x00, 0x20, 0x32, 0x7F, DEQ2496_MODEL_ID, 0x34] ++ c, x &&& 0x80 = 0 := by
    intro x hx
    simp only [List.mem_append, List.mem_cons, List.not_mem_nil, or_false] at hx
    rcases hx with (rfl | rfl | rfl | rfl | rfl | rfl) | hx
    · decide
    · decide
    · decide
    · decide
    · decide
    · decide
    · exact low_and80 x (hc x hx)
  have h1 : (sysExHdr ++ c ++ [0xF7]) ++ rest =
      [0xF0] ++ ([0x00, 0x20, 0x32, 0x7F, DEQ2496_MODEL_ID, 0x34] ++ c) ++ (0xF7 :: rest) := by
    simp [sysExHdr]
  have h2 : (sysExHdr ++ c ++ [0xF7]) ++ rest = (sysExHdr ++ c) ++ (0xF7 :: rest) := by
    simp
  have hhigh : (0xF7 :: rest).getD 0 0 &&& 0x80 ≠ 0 := by
    rw [List.getD_cons_zero]
    decide
  have hfind : pmFindEnd ((sysExHdr ++ c ++ [0xF7]) ++ rest) 1 = 7 + c.length := by
    rw [h1, show (1 : Nat) = ([0xF0] : List Nat).length from rfl,
      pmFindEnd_low ([0x00, 0x20, 0x32, 0x7F, DEQ2496_MODEL_ID, 0x34] ++ c) [0xF0]
        (0xF7 :: rest) hlow (by simp) hhigh]
    simp only [List.length_append, List.length_cons, List.length_nil]
    omega
  have hget0 : ((sysExHdr ++ c ++ [0xF7]) ++ rest).getD 0 0 = 0xF0 := by
    simp [sysExHdr]
  have hget7 : ((sysExHdr ++ c ++ [0xF7]) ++ rest).getD (7 + c.length) 0 = 0xF7 := by
    rw [h2, getD_append_ge _ _ _ (by simp [sysExHdr]; omega)]
    have hz : 7 + c.length - (sysExHdr ++ c).length = 0 := by
      simp [sysExHdr]
      omega
    rw [hz]
    rfl
  have htake : ((sysExHdr ++ c ++ [0xF7]) ++ rest).take (7 + c.length) = sysExHdr ++ c := by
    rw [h2, List.take_left' (by simp [sysExHdr]; omega)]
  unfold pmStep
  rw [hget0, if_pos (by decide), hfind, hget7, if_pos (by decide), htake]
  simp only [List.drop_zero, Prod.mk.injEq]
  exact ⟨by omega, trivial⟩

/-- Scanning a concatenation of framed events yields exactly the events
(sans trailing 0xF7), given sufficient fuel. -/
theorem pmRun_events (es : List (List Nat)) : ∀ fuel : Nat,
    (∀ c ∈ es, ∀ x ∈ c, x < 128) → es.length + 1 ≤ fuel →
    pmRun (es.flatMap (fun content => sysExHdr ++ content ++ [0xF7])) fuel 0 =
      es.map (fun content => sysExHdr ++ content) := by
  induction es with
  | nil =>
    intro fuel _ hfuel
    obtain ⟨f, rfl⟩ : ∃ f, fuel = f + 1 := ⟨fuel - 1, by omega⟩
    rfl
  | cons c rest ih =>
    intro fuel hes hfuel
    obtain ⟨f, rfl⟩ : ∃ f, fuel = f + 1 := ⟨fuel - 1, by omega⟩
    simp only [List.flatMap_cons, List.map_cons]
    have hstep := pmStep_wrap c (rest.flatMap (fun content => sysExHdr ++ content ++ [0xF7]))
      (hes c (by simp))
    have hpos : (0 : Nat) <
        ((sysExHdr ++ c ++ [0xF7]) ++
          rest.flatMap (fun content => sysExHdr ++ content ++ [0xF7])).length := by
      simp [sysExHdr]
    show pmRun _ (f + 1) 0 = _
    simp only [pmRun]
    rw [if_pos hpos, hstep]
    have hlenwrap : (sysExHdr ++ c ++ [0xF7]).length = 8 + c.length := by
      simp [sysExHdr]
      omega
    show (sysExHdr ++ c) :: pmRun ((sysExHdr ++ c ++ [0xF7]) ++
        rest.flatMap (fun content => sysExHdr ++ content ++ [0xF7])) f (8 + c.length) = _
    congr 1
    rw [show (8 + c.length) = (sysExHdr ++ c ++ [0xF7]).length from hlenwrap.symm]
    rw [pmRun_append (sysExHdr ++ c ++ [0xF7])
      (rest.flatMap (fun content => sysExHdr ++ content ++ [0xF7])) f _ (Nat.le_refl _)]
    rw [Nat.sub_self]
    rw [ih f (fun d hd => hes d (by simp [hd])) (by simp at hfuel ⊢; omega)]

/-- Parsing a framed event recovers the header fields and the payload. -/
theorem parseSysEx_wrapped (c : List Nat) :
    parseSysEx (sysExHdr ++ c) = some (SysExInfo.mk 0x7F DEQ2496_MODEL_ID 0x34 c) := by
  unfold parseSysEx sysExHdr DEQ2496_MODEL_ID
  simp only [List.cons_append, List.getD_cons_succ, List.getD_cons_zero, List.drop_succ_cons,
    List.drop_zero, List.nil_append]
  rw [if_pos (by decide)]

/-- Folding the decoder over a list of framed sub-block events stores each
payload at its sub-block number, in order. -/
theorem decodeFold (ps : List (Nat × List Nat)) : ∀ st0 : Nat → Option (List Nat),
    (∀ p ∈ ps, p.2.length = 256 ∧ (∀ x ∈ p.2, x < 256) ∧ p.1 < 65536 ∧ p.1 ≠ 0xFF00) →
    ((ps.map (fun p => sysExHdr ++ packSubblock p.2 p.1)).foldlM
      (fun st e => (parseSysEx e).map (fun info => (addMIDIWrite st info).1)) st0) =
    some (ps.foldl (fun st p => fun n => if n = p.1 then some p.2 else st n) st0) := by
  induction ps with
  | nil => intro st0 _; rfl
  | cons p ps1 ih =>
    intro st0 hp
    obtain ⟨h1, h2, h3, h4⟩ := hp p (by simp)
    simp only [List.map_cons, List.foldl_cons, List.foldlM_cons]
    rw [parseSysEx_wrapped]
    simp only [Option.map_some', Option.some_bind]
    rw [addMIDIWrite_packSubblock st0 p.2 p.1 h1 h2 h3 h4]
    exact ih _ (fun q hq => hp q (by simp [hq]))

/-- Folding the stores of one block of sixteen sub-blocks updates a
contiguous key range. -/
theorem storeBlock (b : Nat) (g : Nat → List Nat) (k : Nat) :
    ∀ st : Nat → Option (List Nat),
    ((List.range k).map (fun s => (16 * b + s, g s))).foldl
      (fun st p => fun n => if n = p.1 then some p.2 else st n) st =
    fun n => if 16 * b ≤ n ∧ n < 16 * b + k then some (g (n - 16 * b)) else st n := by
  induction k with
  | zero =>
    intro st
    funext n
    simp only [List.range_zero, List.map_nil, List.foldl_nil]
    rw [if_neg (by omega)]
  | succ m ih =>
    intro st
    rw [List.range_succ, List.map_append, List.foldl_append, ih st]
    simp only [List.map_cons, List.map_nil, List.foldl_cons, List.foldl_nil]
    funext n
    by_cases hn : n = 16 * b + m
    · rw [if_pos hn, if_pos (by omega), hn,
        show 16 * b + m - 16 * b = m from by omega]
    · rw [if_neg hn]
      by_cases hin : 16 * b ≤ n ∧ n < 16 * b + m
      · rw [if_pos hin, if_pos (by omega)]
      · rw [if_neg hin, if_neg (by omega)]

/-- Folding the stores of all blocks yields the expected sparse sub-block
map. -/
theorem storeBlocks (a : Nat) (cont : Nat → Nat → List Nat) (bc : Nat) :
    ∀ st : Nat → Option (List Nat),
    ((List.range bc).flatMap
      (fun i => (List.range 16).map (fun s => (16 * (a + i) + s, cont i s)))).foldl
      (fun st p => fun n => if n = p.1 then some p.2 else st n) st =
    fun n => if 16 * a ≤ n ∧ n < 16 * (a + bc) then
      some (cont ((n - 16 * a) / 16) (n % 16)) else st n := by
  induction bc with
  | zero =>
    intro st
    funext n
    simp only [List.range_zero, List.flatMap_nil, List.foldl_nil]
    rw [if_neg (by omega)]
  | succ m ih =>
    intro st
    rw [List.range_succ, List.flatMap_append, List.foldl_append, ih st]
    simp only [List.flatMap_cons, List.flatMap_nil, List.append_nil]
    rw [storeBlock (a + m) (cont m) 16]
    funext n
    by_cases htop : 16 * (a + m) ≤ n ∧ n < 16 * (a + m) + 16
    · rw [if_pos htop, if_pos (by omega),
        show (n - 16 * a) / 16 = m from by omega,
        show n % 16 = n - 16 * (a + m) from by omega]
    · rw [if_neg htop]
      by_cases hin : 16 * a ≤ n ∧ n < 16 * (a + m)
      · rw [if_pos hin, if_pos (by omega)]
      · rw [if_neg hin, if_neg (by omega)]

/-! ## Remaining support lemmas for the round trip -/

theorem mapM_eq_some (l : List Nat) (f : Nat → Option (List Nat)) (g : Nat → List Nat)
    (h : ∀ x ∈ l, f x = some (g x)) : l.mapM f = some (l.map g) := by
  induction l with
  | nil => rfl
  | cons x xs ih =>
    rw [List.mapM_cons, h x (by simp), ih (fun y hy => h y (by simp [hy]))]
    rfl

theorem mapM_eq_none (l : List Nat) (f : Nat → Option (List Nat))
    (h : ∃ x ∈ l, f x = none) : l.mapM f = none := by
  induction l with
  | nil => simp at h
  | cons x xs ih =>
    rw [List.mapM_cons]
    cases ha : f x with
    | none => rfl
    | some v =>
      obtain ⟨y, hy, hyn⟩ := h
      rcases List.mem_cons.mp hy with rfl | hmem
      · rw [ha] at hyn
        exact absurd hyn (by simp)
      · rw [ih ⟨y, hmem, hyn⟩]
        rfl

theorem flatMap_single (l : List Nat) (f : Nat → List Nat) :
    l.flatMap (fun x => [f x]) = l.map f := by
  induction l with
  | nil => rfl
  | cons x xs ih => simp only [List.flatMap_cons, List.map_cons, ih, List.singleton_append]

theorem mbn_eq (b s : Nat) (hs : s < 16) : (b <<< 4) ||| s = 16 * b + s := by
  have h := Nat.mul_add_lt_is_or (i := 4) (b := s) (by omega) b
  rw [Nat.shiftLeft_eq, show b * 2 ^ 4 = 2 ^ 4 * b from by ring, ← h]

theorem shl12_eq (x : Nat) : x <<< 12 = x * 4096 := by
  rw [Nat.shiftLeft_eq]

theorem shl8_eq (x : Nat) : x <<< 8 = x * 256 := by
  rw [Nat.shiftLeft_eq]

theorem shr12_mul (a : Nat) : (4096 * a) >>> 12 = a := by
  rw [Nat.shiftRight_eq_div_pow]
  omega

/-- Joining the sixteen 256-byte slices of a 4096-byte buffer restores the
buffer (general version: k slices of a 256k-byte buffer). -/
theorem chunksJoin (k : Nat) : ∀ l : List Nat, l.length = 256 * k →
    ((List.range k).map (fun s => (l.drop (s <<< 8)).take 256)).flatten = l := by
  induction k with
  | zero =>
    intro l hl
    have : l = [] := List.eq_nil_of_length_eq_zero (by omega)
    simp [this]
  | succ m ih =>
    intro l hl
    rw [List.range_succ_eq_map]
    simp only [List.map_cons, List.map_map, List.flatten_cons]
    have hfun : ((fun s => (l.drop (s <<< 8)).take 256) ∘ (fun n => n + 1)) =
        (fun s => ((l.drop 256).drop (s <<< 8)).take 256) := by
      funext s
      simp only [Function.comp_apply, shl8_eq, List.drop_drop]
      rw [show (s + 1) * 256 = 256 + s * 256 from by ring]
    rw [hfun, ih (l.drop 256) (by rw [List.length_drop]; omega)]
    rw [show (0 : Nat) <<< 8 = 0 from rfl, List.drop_zero, List.take_append_drop]

theorem flatMap_wrap_length_ge (es : List (List Nat)) :
    es.length ≤ (es.flatMap (fun content => sysExHdr ++ content ++ [0xF7])).length := by
  induction es with
  | nil => simp
  | cons c rest ih =>
    simp only [List.flatMap_cons, List.length_cons, List.length_append]
    have : 1 ≤ (sysExHdr ++ c ++ [0xF7]).length := by
      simp [sysExHdr]
    omega

theorem flat_last (es : List (List Nat)) (hne : es ≠ []) :
    (es.flatMap (fun content => sysExHdr ++ content ++ [0xF7])).getD
      ((es.flatMap (fun content => sysExHdr ++ content ++ [0xF7])).length - 1) 0 = 0xF7 := by
  induction es with
  | nil => exact absurd rfl hne
  | cons c rest ih =>
    cases rest with
    | nil =>
      simp only [List.flatMap_cons, List.flatMap_nil, List.append_nil]
      have hge : (sysExHdr ++ c).length ≤ (sysExHdr ++ c ++ [0xF7]).length - 1 := by
        simp only [List.length_append, List.length_cons, List.length_nil]
        omega
      rw [getD_append_ge _ _ _ hge]
      have hidx : (sysExHdr ++ c ++ [0xF7]).length - 1 - (sysExHdr ++ c).length = 0 := by
        simp only [List.length_append, List.length_cons, List.length_nil]
        omega
      rw [hidx]
      rfl
    | cons d rest2 =>
      simp only [List.flatMap_cons] at ih ⊢
      have hlen2 : 1 ≤ ((sysExHdr ++ d ++ [0xF7]) ++
          rest2.flatMap (fun content => sysExHdr ++ content ++ [0xF7])).length := by
        simp [sysExHdr]
      have hidx : ∀ x y : Nat, 1 ≤ y → x + y - 1 - x = y - 1 := by
        intro x y hy
        omega
      rw [List.length_append, getD_append_ge _ _ _ (by omega), hidx _ _ hlen2]
      exact ih (by simp)

/-- A concatenation of framed events passes the `isSysEx` format check. -/
theorem isSysEx_events (es : List (List Nat)) (hne : es ≠ [])
    (hes : ∀ c ∈ es, ∀ x ∈ c, x < 128) :
    isSysEx (es.flatMap (fun content => sysExHdr ++ content ++ [0xF7])) = true := by
  unfold isSysEx
  simp only [Bool.and_eq_true]
  refine ⟨⟨?_, ?_⟩, ?_⟩
  · cases es with
    | nil => exact absurd rfl hne
    | cons c rest =>
      simp only [List.flatMap_cons]
      have h0 : ((sysExHdr ++ c ++ [0xF7]) ++
          rest.flatMap (fun content => sysExHdr ++ content ++ [0xF7])).getD 0 0 = 0xF0 := by
        simp [sysExHdr]
      rw [h0]
      decide
  · rw [flat_last es hne]
    decide
  · rw [List.all_eq_true]
    intro x hx
    obtain ⟨c, hc, hxc⟩ := List.mem_flatMap.mp hx
    have hxc2 : x ∈ sysExHdr ∨ x ∈ c ∨ x = 0xF7 := by
      simp only [List.mem_append, List.mem_singleton] at hxc
      tauto
    rcases hxc2 with h | h | rfl
    · have : x = 0xF0 ∨ x = 0x00 ∨ x = 0x20 ∨ x = 0x32 ∨ x = 0x7F ∨
          x = DEQ2496_MODEL_ID ∨ x = 0x34 := by
        simpa [sysExHdr] using h
      rcases this with rfl | rfl | rfl | rfl | rfl | rfl | rfl <;> decide
    · have hlt : x < 128 := hes c hc x h
      have hz := low_and80 x hlt
      rw [hz]
      simp
    · decide

theorem flatMap_congr (l : List Nat) (f g : Nat → List (List Nat))
    (h : ∀ x ∈ l, f x = g x) : l.flatMap f = l.flatMap g := by
  induction l with
  | nil => rfl
  | cons x xs ih =>
    simp only [List.flatMap_cons, h x (by simp), ih (fun y hy => h y (by simp [hy]))]

/-- With no display messages, the encoder emits exactly one packed
sub-block event per (block, sub-block) pair, in order. -/
theorem fwEncodeEvents_shape (k a : Nat) (B : List Nat) (hlen : B.length = 4096 * k) :
    fwEncodeEvents (4096 * a) B (fun _ => none) =
      ((List.range (k + 1)).flatMap (fun i =>
        (List.range 16).map (fun s =>
          (16 * (a + i) + s,
            ((midiFirmwareCoder (a + i)
              (((appEncrypted (4096 * a) B ++ List.replicate 4096 0xFF).drop (i <<< 12)).take
                0x1000)).drop (s <<< 8)).take 256)))).map
        (fun p => packSubblock p.2 p.1) := by
  have happlen : (appEncrypted (4096 * a) B).length = 4096 * k := by
    unfold appEncrypted
    split
    · rw [xorBytes_length, hlen]
    · exact hlen
  have hins : ∀ c, insertMessage (fun _ => none) c = [] := fun c => rfl
  unfold fwEncodeEvents
  simp only [hins, List.append_nil, List.nil_append]
  have hmod : 4096 - (appEncrypted (4096 * a) B).length % 4096 = 4096 := by
    rw [happlen]
    omega
  rw [hmod]
  have hbc : (appEncrypted (4096 * a) B ++ List.replicate 4096 0xFF).length >>> 12 = k + 1 := by
    rw [List.length_append, List.length_replicate, happlen,
      show 4096 * k + 4096 = 4096 * (k + 1) from by ring, shr12_mul]
  rw [hbc, List.map_flatMap]
  apply flatMap_congr
  intro i _
  rw [List.map_map, shr12_mul, flatMap_single]
  apply List.map_congr_left
  intro s hs
  have hs16 : s < 16 := List.mem_range.mp hs
  simp only [Function.comp_apply]
  rw [mbn_eq (a + i) s hs16]

/-! ## The round-trip theorem (C1) -/

/-- The buffer actually flashed by `encodeFirmware` when the input length
is a multiple of 4096: the (possibly app-key-encrypted) input followed by
one full extra block of 0xFF padding. -/
def paddedBuf (a : Nat) (B : List Nat) : List Nat :=
  appEncrypted (4096 * a) B ++ List.replicate 4096 0xFF

/-- The i-th 4 KiB block as sent on the wire: sliced from the padded buffer
and run through the block-address cipher. -/
def encBlock (a : Nat) (B : List Nat) (i : Nat) : List Nat :=
  midiFirmwareCoder (a + i) (((paddedBuf a B).drop (i <<< 12)).take 0x1000)

/-- The (i, s) 256-byte sub-block as sent on the wire. -/
def encSub (a : Nat) (B : List Nat) (i s : Nat) : List Nat :=
  ((encBlock a B i).drop (s <<< 8)).take 256

/-- The (sub-block number, payload) pairs emitted by the encoder, in order. -/
def encPairs (a : Nat) (B : List Nat) (k : Nat) : List (Nat × List Nat) :=
  (List.range (k + 1)).flatMap (fun i =>
    (List.range 16).map (fun s => (16 * (a + i) + s, encSub a B i s)))

theorem fwEncodeEvents_pairs (k a : Nat) (B : List Nat) (hlen : B.length = 4096 * k) :
    fwEncodeEvents (4096 * a) B (fun _ => none) =
      (encPairs a B k).map (fun p => packSubblock p.2 p.1) := by
  rw [fwEncodeEvents_shape k a B hlen]
  rfl

theorem appEncrypted_length (a : Nat) (B : List Nat) :
    (appEncrypted (4096 * a) B).length = B.length := by
  unfold appEncrypted
  split
  · rw [xorBytes_length]
  · rfl

theorem paddedBuf_length (k a : Nat) (B : List Nat) (hlen : B.length = 4096 * k) :
    (paddedBuf a B).length = 4096 * (k + 1) := by
  unfold paddedBuf
  rw [List.length_append, List.length_replicate, appEncrypted_length, hlen]
  ring

theorem paddedBuf_bytes (a : Nat) (B : List Nat) (hbytes : ∀ x ∈ B, x < 256) :
    ∀ x ∈ paddedBuf a B, x < 256 := by
  intro x hx
  unfold paddedBuf appEncrypted at hx
  rcases List.mem_append.mp hx with h | h
  · split at h
    · exact xorBytes_lt_256 _ KEY_FW_APP_lt _ hbytes x h
    · exact hbytes x h
  · have := List.eq_of_mem_replicate h
    omega

theorem encBlock_length (k a i : Nat) (B : List Nat) (hlen : B.length = 4096 * k)
    (hik : i ≤ k) : (encBlock a B i).length = 4096 := by
  unfold encBlock
  rw [midiFirmwareCoder_length, List.length_take, List.length_drop,
    paddedBuf_length k a B hlen, shl12_eq]
  have : 4096 * (k + 1) - i * 4096 ≥ 4096 := by
    have : i * 4096 ≤ k * 4096 := Nat.mul_le_mul_right _ hik
    omega
  omega

theorem encBlock_bytes (k a i : Nat) (B : List Nat) (hbytes : ∀ x ∈ B, x < 256)
    (hik : a + i < 65536) : ∀ x ∈ encBlock a B i, x < 256 := by
  unfold encBlock
  apply midiFirmwareCoder_lt_256 _ hik
  intro x hx
  exact paddedBuf_bytes a B hbytes x (List.mem_of_mem_drop (List.mem_of_mem_take hx))

theorem encSub_length (k a i s : Nat) (B : List Nat) (hlen : B.length = 4096 * k)
    (hik : i ≤ k) (hs : s < 16) : (encSub a B i s).length = 256 := by
  unfold encSub
  rw [List.length_take, List.length_drop, encBlock_length k a i B hlen hik, shl8_eq]
  omega

theorem encSub_bytes (k a i s : Nat) (B : List Nat) (hbytes : ∀ x ∈ B, x < 256)
    (hik : a + i < 65536) : ∀ x ∈ encSub a B i s, x < 256 := by
  intro x hx
  exact encBlock_bytes k a i B hbytes hik x
    (List.mem_of_mem_drop (List.mem_of_mem_take hx))

theorem encPairs_spec (k a : Nat) (B : List Nat) (hlen : B.length = 4096 * k)
    (hbytes : ∀ x ∈ B, x < 256) (hrange : a + k < 0x5B) :
    ∀ p ∈ encPairs a B k,
      p.2.length = 256 ∧ (∀ x ∈ p.2, x < 256) ∧ p.1 < 65536 ∧ p.1 ≠ 0xFF00 := by
  intro p hp
  unfold encPairs at hp
  obtain ⟨i, hi, hp2⟩ := List.mem_flatMap.mp hp
  obtain ⟨s, hs, rfl⟩ := List.mem_map.mp hp2
  have hik : i ≤ k := by
    have := List.mem_range.mp hi
    omega
  have hs16 : s < 16 := List.mem_range.mp hs
  refine ⟨encSub_length k a i s B hlen hik hs16,
    encSub_bytes k a i s B hbytes (by omega), by omega, by omega⟩

theorem getBlocks_expected (a bc : Nat) (cont : Nat → Nat → List Nat)
    (hbc : a + bc ≤ 0x80) (i : Nat) :
    getBlocks (fun n => if 16 * a ≤ n ∧ n < 16 * (a + bc) then
        some (cont ((n - 16 * a) / 16) (n % 16)) else none) i =
      if a ≤ i ∧ i < a + bc then
        some (decodeBlock i ((List.range 16).map (fun s => cont (i - a) s)).flatten)
      else none := by
  have h4 : i <<< 4 = 16 * i := by
    rw [Nat.shiftLeft_eq]
    ring
  by_cases hin : a ≤ i ∧ i < a + bc
  · rw [if_pos hin]
    simp only [getBlocks]
    rw [if_pos (show i < 0x80 from by omega)]
    have hmapm : (List.range 16).mapM (fun s =>
        if 16 * a ≤ (i <<< 4) + s ∧ (i <<< 4) + s < 16 * (a + bc) then
          some (cont (((i <<< 4) + s - 16 * a) / 16) (((i <<< 4) + s) % 16))
        else none) = some ((List.range 16).map (fun s => cont (i - a) s)) := by
      apply mapM_eq_some
      intro s hs
      have hs16 : s < 16 := List.mem_range.mp hs
      rw [h4, if_pos ⟨by omega, by omega⟩,
        show (16 * i + s - 16 * a) / 16 = i - a from by omega,
        show (16 * i + s) % 16 = s from by omega]
    rw [hmapm]
  · rw [if_neg hin]
    simp only [getBlocks]
    by_cases h80 : i < 0x80
    · rw [if_pos h80]
      have hmapm : (List.range 16).mapM (fun s =>
          if 16 * a ≤ (i <<< 4) + s ∧ (i <<< 4) + s < 16 * (a + bc) then
            some (cont (((i <<< 4) + s - 16 * a) / 16) (((i <<< 4) + s) % 16))
          else none) = none := by
        apply mapM_eq_none
        refine ⟨0, by simp, ?_⟩
        rw [h4, if_neg (by omega)]
      rw [hmapm]
    · rw [if_neg h80]

set_option maxHeartbeats 1000000 in
/-- General round-trip lemma: encoding `k` full blocks at address `4096*a`
and decoding the stream stores blocks `a .. a+k` (one more than `k` when
the length is a multiple of 4096, because the encoder appends a full extra
padding block), each equal to the matching slice of the padded buffer. -/
theorem fw_roundtrip (k a : Nat) (B : List Nat)
    (hlen : B.length = 4096 * k) (hbytes : ∀ x ∈ B, x < 256)
    (ha4 : 4 ≤ a) (hrange : a + k < 0x5B) :
    ∃ st, decodeFirmware (fwEncode (4096 * a) B (fun _ => none)) = some st ∧
      (∀ i, getBlocks st i =
        if a ≤ i ∧ i ≤ a + k then
          some (((paddedBuf a B).drop ((i - a) * 4096)).take 4096)
        else none) ∧
      (4096 * a = 0x4000 →
        xorBytes KEY_FW_APP ((paddedBuf a B).take (4096 * k)) = B) ∧
      (paddedBuf a B).drop (4096 * k) = List.replicate 4096 0xFF := by
  have happlen : (appEncrypted (4096 * a) B).length = 4096 * k := by
    rw [appEncrypted_length, hlen]
  have hp := encPairs_spec k a B hlen hbytes hrange
  have hesbytes : ∀ c ∈ (encPairs a B k).map (fun p => packSubblock p.2 p.1),
      ∀ x ∈ c, x < 128 := by
    intro c hc
    obtain ⟨p, hpmem, rfl⟩ := List.mem_map.mp hc
    obtain ⟨h1, h2, h3, _⟩ := hp p hpmem
    exact packSubblock_lt_128 p.2 p.1 h2 h3
  have hne : (encPairs a B k).map (fun p => packSubblock p.2 p.1) ≠ [] := by
    have hmem : (16 * (a + 0) + 0, encSub a B 0 0) ∈ encPairs a B k := by
      unfold encPairs
      exact List.mem_flatMap.mpr ⟨0, List.mem_range.mpr (by omega),
        List.mem_map.mpr ⟨0, List.mem_range.mpr (by omega), rfl⟩⟩
    exact List.ne_nil_of_mem (List.mem_map_of_mem _ hmem)
  have hfw : fwEncode (4096 * a) B (fun _ => none) =
      ((encPairs a B k).map (fun p => packSubblock p.2 p.1)).flatMap
        (fun content => sysExHdr ++ content ++ [0xF7]) := by
    unfold fwEncode
    rw [fwEncodeEvents_pairs k a B hlen]
  refine ⟨fun n => if 16 * a ≤ n ∧ n < 16 * (a + (k + 1)) then
      some (encSub a B ((n - 16 * a) / 16) (n % 16)) else none, ?_, ?_, ?_, ?_⟩
  · rw [hfw]
    unfold decodeFirmware
    rw [if_pos (isSysEx_events _ hne hesbytes)]
    rw [pmRun_events _ _ hesbytes (by
      have := flatMap_wrap_length_ge ((encPairs a B k).map (fun p => packSubblock p.2 p.1))
      omega)]
    rw [List.map_map]
    have hcomp : ((fun content => sysExHdr ++ content) ∘ (fun p : Nat × List Nat =>
        packSubblock p.2 p.1)) = fun p : Nat × List Nat => sysExHdr ++ packSubblock p.2 p.1 := by
      funext p
      rfl
    rw [hcomp, decodeFold (encPairs a B k) _ hp]
    unfold encPairs
    rw [storeBlocks a (encSub a B) (k + 1)]
  · intro i
    rw [getBlocks_expected a (k + 1) (encSub a B) (by omega) i]
    by_cases hin : a ≤ i ∧ i < a + (k + 1)
    · rw [if_pos hin, if_pos (by omega)]
      have hflat : ((List.range 16).map (fun s => encSub a B (i - a) s)).flatten =
          encBlock a B (i - a) := by
        unfold encSub
        exact chunksJoin 16 (encBlock a B (i - a))
          (by rw [encBlock_length k a (i - a) B hlen (by omega)])
      rw [hflat]
      unfold decodeBlock
      rw [if_pos ⟨by omega, by omega⟩]
      unfold encBlock
      rw [show a + (i - a) = i from by omega]
      unfold midiFirmwareCoder
      rw [mfcGo_invol]
      rw [shl12_eq]
    · rw [if_neg hin, if_neg (by omega)]
  · intro haddr
    unfold paddedBuf
    rw [List.take_left' happlen]
    unfold appEncrypted
    rw [if_pos (by rw [haddr]; decide)]
    exact xorBytes_invol _ _
  · unfold paddedBuf
    rw [List.drop_left' happlen]

/-- C1 counterexample: the original claim says the decoded FlashBlock map
covers exactly `|B|/4096` blocks.  Encoding the EMPTY buffer (so
`|B|/4096 = 0` blocks) at the aligned application address `0x4000` still
yields a stream whose decode stores one block (index 4, the full 0xFF
padding block the encoder always appends when the length is already a
multiple of 4096), so the map covers `|B|/4096 + 1` blocks, not
`|B|/4096`. -/
theorem c1_counterexample :
    ∃ st, decodeFirmware (fwEncode (4096 * 4) [] (fun _ => none)) = some st ∧
      getBlocks st 4 ≠ none := by
  obtain ⟨st, hdec, hblocks, -, -⟩ := fw_roundtrip 0 4 [] rfl (by simp) (by omega) (by omega)
  refine ⟨st, hdec, ?_⟩
  rw [hblocks 4, if_pos ⟨Nat.le_refl 4, by omega⟩]
  simp

/-- C1 (amended): for every cleartext buffer `B` of exactly `k` 4096-byte
blocks, encoded at aligned address `4096*a` with the DEQ2496v2 profile and
no messages, decoding the produced MIDI stream yields a FlashBlock map
covering exactly `k + 1` blocks (the encoder pads with a FULL extra 0xFF
block when the length is already a multiple of 4096), at indices
`a .. a+k`; provided the target range lies inside the block-cipher range
4..0x5A, each decoded block is the matching 4096-byte slice of the padded
buffer (app-key-encrypted exactly when the address is 0x4000), so the
cleartext `B` is recovered from the first `k` blocks by XOR-decrypting the
application region with the application key, and the final extra block is
pure 0xFF padding. -/
theorem c1_encode_decode_roundtrip (k a : Nat) (B : List Nat)
    (hlen : B.length = 4096 * k) (hbytes : ∀ x ∈ B, x < 256)
    (ha4 : 4 ≤ a) (hrange : a + k < 0x5B) :
    ∃ st, decodeFirmware (fwEncode (4096 * a) B (fun _ => none)) = some st ∧
      (∀ i, getBlocks st i =
        if a ≤ i ∧ i ≤ a + k then
          some (((paddedBuf a B).drop ((i - a) * 4096)).take 4096)
        else none) ∧
      (4096 * a = 0x4000 →
        xorBytes KEY_FW_APP ((paddedBuf a B).take (4096 * k)) = B) ∧
      (paddedBuf a B).drop (4096 * k) = List.replicate 4096 0xFF :=
  fw_roundtrip k a B hlen hbytes ha4 hrange

/-- Witness for C1: the amended round trip instantiated at the empty
buffer, `k = 0`, address `0x4000` (`a = 4`). -/
theorem c1_encode_decode_roundtrip_witness :
    ∃ st, decodeFirmware (fwEncode (4096 * 4) [] (fun _ => none)) = some st ∧
      (∀ i, getBlocks st i =
        if 4 ≤ i ∧ i ≤ 4 + 0 then
          some (((paddedBuf 4 []).drop ((i - 4) * 4096)).take 4096)
        else none) ∧
      (4096 * 4 = 0x4000 →
        xorBytes KEY_FW_APP ((paddedBuf 4 []).take (4096 * 0)) = []) ∧
      (paddedBuf 4 []).drop (4096 * 0) = List.replicate 4096 0xFF :=
  c1_encode_decode_roundtrip 0 4 [] rfl (by simp) (by omega) (by omega)
